import Mathlib

/-!
Verification of `src/canon52_minimal.py` (YFCore Canon-52 minimal adjudicator).

Shallow embedding notes:
* Python dict-based requests are modelled by the structure `AdjRequest` whose
  fields are the exact keys the source reads via `req.get`, with the source's
  defaults (`valid_id`, `proof_present`, `world_allow` default true,
  `delta_omega_req` defaults 1, everything else false / 0).  Flag fields are
  `Bool` (the source applies Python truthiness via `bool(...)` or `if`), the
  numeric fields `i_flow`, `commit_unique`, `delta_omega_req` are `Int`
  (the source applies `int(...)`).
* Python `raise ValueError(...)` is modelled with `Except String`.
* The body of `adjudicate` is let-lifted: each intermediate local variable of
  the Python function becomes a top-level definition of the request.
-/

namespace Canon52

inductive Route where
  | FAST
  | SAFE
  | BLACKHOLE
deriving DecidableEq, Repr

inductive Dt where
  | WORLD_ALLOW
  | POLICY_ALLOW
  | EVID_ALLOW
  | PENDING
  | REF
  | ROLLBACK
  | DENY
  | QUARANTINE
deriving DecidableEq, Repr

def routeToString : Route → String
  | .FAST => "FAST"
  | .SAFE => "SAFE"
  | .BLACKHOLE => "BLACKHOLE"

def dtToString : Dt → String
  | .WORLD_ALLOW => "WORLD_ALLOW"
  | .POLICY_ALLOW => "POLICY_ALLOW"
  | .EVID_ALLOW => "EVID_ALLOW"
  | .PENDING => "PENDING"
  | .REF => "REF"
  | .ROLLBACK => "ROLLBACK"
  | .DENY => "DENY"
  | .QUARANTINE => "QUARANTINE"

/-!
CanonText.  Strings are modelled as `List Char` (sequences of Unicode scalar
values).  `unicodedata.normalize("NFC", ...)` is a large table-driven external
library function; it is modelled as an abstract parameter `nfc` of
`canon_text`, and the idempotence theorem assumes of it exactly the two
standard Unicode-normalization facts it needs: NFC is idempotent, and NFC
maps a string with no trailing spaces on any line to a string with no
trailing spaces on any line (NFC never creates U+0020 or line breaks).
-/

/-- First pass of `normalize_newlines`: the left-to-right non-overlapping
replacement `text.replace("\r\n", "\n")`. -/
def replaceCrlf : List Char → List Char
  | [] => []
  | [c] => [c]
  | c :: d :: rest =>
    if c = '\r' ∧ d = '\n' then '\n' :: replaceCrlf rest
    else c :: replaceCrlf (d :: rest)

/-- Second pass of `normalize_newlines`: the replacement `text.replace("\r", "\n")`. -/
def replaceCr : List Char → List Char
  | [] => []
  | c :: rest => (if c = '\r' then '\n' else c) :: replaceCr rest

def normalize_newlines (text : List Char) : List Char :=
  replaceCr (replaceCrlf text)

/-- `ln.rstrip(" ")`: strip trailing ASCII spaces only. -/
def rstripSpaces (ln : List Char) : List Char :=
  (ln.reverse.dropWhile (fun c => c == ' ')).reverse

/-- `"\n".join(ln.rstrip(" ") for ln in text.split("\n"))`. -/
def strip_trailing_spaces (text : List Char) : List Char :=
  ['\n'].intercalate ((text.splitOn '\n').map rstripSpaces)

def FORBIDDEN_ZERO_WIDTH : List Char :=
  [Char.ofNat 0x200B, Char.ofNat 0x200C, Char.ofNat 0x200D, Char.ofNat 0xFEFF]

/-- The error (if any) that `forbid_text_chars` raises for a single character,
in the source's check order. -/
def charError (c : Char) : Option String :=
  if c = '\t' then some "TAB_FORBIDDEN"
  else if c ∈ FORBIDDEN_ZERO_WIDTH then some "ZERO_WIDTH_FORBIDDEN"
  else if c.toNat < 32 ∧ c ≠ '\n' then some "CONTROL_CHAR_FORBIDDEN"
  else if c.toNat = 127 then some "CONTROL_CHAR_FORBIDDEN"
  else none

/-- Left-to-right scan: the first forbidden character wins. -/
def forbid_text_chars : List Char → Option String
  | [] => none
  | c :: rest =>
    match charError c with
    | some e => some e
    | none => forbid_text_chars rest

/-- `canon_text`, with the NFC normalization step abstracted as `nfc`. -/
def canon_text (nfc : List Char → List Char) (raw : List Char) :
    Except String (List Char) :=
  match forbid_text_chars (nfc (strip_trailing_spaces (normalize_newlines raw))) with
  | some e => .error e
  | none => .ok (nfc (strip_trailing_spaces (normalize_newlines raw)))

theorem replaceCrlf_of_not_mem : ∀ (l : List Char), '\r' ∉ l → replaceCrlf l = l
  | [], _ => rfl
  | [_], _ => rfl
  | c :: d :: rest, h => by
    have hc : c ≠ '\r' := fun hh => h (hh ▸ List.mem_cons_self _ _)
    have ht : '\r' ∉ d :: rest := fun hh => h (List.mem_cons_of_mem _ hh)
    rw [replaceCrlf, if_neg (fun hcd => hc hcd.1),
      replaceCrlf_of_not_mem (d :: rest) ht]

theorem replaceCr_of_not_mem : ∀ (l : List Char), '\r' ∉ l → replaceCr l = l
  | [], _ => rfl
  | c :: rest, h => by
    have hc : c ≠ '\r' := fun hh => h (hh ▸ List.mem_cons_self _ _)
    have ht : '\r' ∉ rest := fun hh => h (List.mem_cons_of_mem _ hh)
    rw [replaceCr, if_neg hc, replaceCr_of_not_mem rest ht]

theorem forbid_none_charError {l : List Char} (h : forbid_text_chars l = none) :
    ∀ c ∈ l, charError c = none := by
  induction l with
  | nil => simp
  | cons c rest ih =>
    intro d hd
    unfold forbid_text_chars at h
    rcases List.mem_cons.mp hd with h1 | h1
    · subst h1
      cases he : charError d with
      | none => rfl
      | some e => rw [he] at h; exact absurd h (by simp)
    · cases he : charError c with
      | none => rw [he] at h; exact ih h d h1
      | some e => rw [he] at h; exact absurd h (by simp)

theorem forbid_none_no_cr {l : List Char} (h : forbid_text_chars l = none) :
    '\r' ∉ l := by
  intro hmem
  have := forbid_none_charError h '\r' hmem
  rw [show charError '\r' = some "CONTROL_CHAR_FORBIDDEN" from by decide] at this
  exact absurd this (by simp)

theorem rstripSpaces_idem (l : List Char) :
    rstripSpaces (rstripSpaces l) = rstripSpaces l := by
  unfold rstripSpaces
  rw [List.reverse_reverse, List.dropWhile_idempotent]

theorem rstripSpaces_not_mem {c : Char} {l : List Char} (h : c ∉ l) :
    c ∉ rstripSpaces l := by
  intro hc
  apply h
  unfold rstripSpaces at hc
  rw [List.mem_reverse] at hc
  exact List.mem_reverse.mp (List.dropWhile_subset _ hc)

theorem splitOnP_pieces {α : Type} (p : α → Bool) :
    ∀ xs : List α, ∀ l ∈ xs.splitOnP p, ∀ c ∈ l, ¬ p c := by
  intro xs
  induction xs with
  | nil => intro l hl c hc; simp at hl; subst hl; simp at hc
  | cons x xs ih =>
    intro l hl c hc
    rw [List.splitOnP_cons] at hl
    by_cases hx : p x
    · rw [if_pos hx] at hl
      rcases List.mem_cons.mp hl with h1 | h1
      · subst h1; simp at hc
      · exact ih l h1 c hc
    · rw [if_neg hx] at hl
      cases hsp : xs.splitOnP p with
      | nil => exact absurd hsp (List.splitOnP_ne_nil p xs)
      | cons h0 t =>
        rw [hsp] at hl
        rcases List.mem_cons.mp hl with h1 | h1
        · subst h1
          rcases List.mem_cons.mp hc with h2 | h2
          · subst h2; exact hx
          · exact ih h0 (hsp ▸ List.mem_cons_self h0 t) c h2
        · exact ih l (hsp ▸ List.mem_cons_of_mem h0 h1) c hc

theorem splitOn_pieces_no_sep {l piece : List Char}
    (h : piece ∈ l.splitOn '\n') : '\n' ∉ piece := by
  intro hmem
  have := splitOnP_pieces (fun c => c == '\n') l piece h '\n' hmem
  simp at this

theorem strip_trailing_spaces_idem (l : List Char) :
    strip_trailing_spaces (strip_trailing_spaces l) = strip_trailing_spaces l := by
  unfold strip_trailing_spaces
  have hx : ∀ piece ∈ (l.splitOn '\n').map rstripSpaces, '\n' ∉ piece := by
    intro piece hpiece
    rcases List.mem_map.mp hpiece with ⟨p0, hp0, hrfl⟩
    subst hrfl
    exact rstripSpaces_not_mem (splitOn_pieces_no_sep hp0)
  have hne : (l.splitOn '\n').map rstripSpaces ≠ [] := by
    intro hnil
    exact List.splitOnP_ne_nil _ l (List.map_eq_nil_iff.mp hnil)
  rw [List.splitOn_intercalate _ '\n' hx hne, List.map_map]
  congr 1
  exact List.map_congr_left (fun a _ => rstripSpaces_idem a)

/-- C5: `canon_text` is idempotent on inputs on which it succeeds, for any
normalization function `nfc` that is idempotent and preserves freedom from
line-trailing spaces (both hold for Unicode NFC). -/
theorem c5_canon_text_idem (nfc : List Char → List Char)
    (h1 : ∀ s, nfc (nfc s) = nfc s)
    (h2 : ∀ s, strip_trailing_spaces s = s →
      strip_trailing_spaces (nfc s) = nfc s)
    (x y : List Char) (hx : canon_text nfc x = .ok y) :
    canon_text nfc y = .ok y := by
  unfold canon_text at hx
  cases hfe : forbid_text_chars (nfc (strip_trailing_spaces (normalize_newlines x))) with
  | some e => rw [hfe] at hx; exact absurd hx (by simp)
  | none =>
    rw [hfe] at hx
    have hy : nfc (strip_trailing_spaces (normalize_newlines x)) = y := by
      exact Except.ok.inj hx
    have hforb : forbid_text_chars y = none := hy ▸ hfe
    have hnocr : '\r' ∉ y := forbid_none_no_cr hforb
    have hnorm : normalize_newlines y = y := by
      unfold normalize_newlines
      rw [replaceCrlf_of_not_mem y hnocr, replaceCr_of_not_mem y hnocr]
    have hstrip : strip_trailing_spaces y = y := by
      rw [← hy]
      exact h2 _ (strip_trailing_spaces_idem _)
    have hnfc : nfc y = y := by
      rw [← hy, h1]
    unfold canon_text
    rw [hnorm, hstrip, hnfc, hforb]

/-- Witness for C5: the identity function satisfies both `nfc` hypotheses,
and `canon_text id "a \r\nb" = ok "a\nb"`, so `canon_text id` fixes `"a\nb"`. -/
theorem c5_witness :
    canon_text (fun s => s) (String.toList "a\nb") =
      .ok (String.toList "a\nb") :=
  c5_canon_text_idem (fun s => s) (fun _ => rfl) (fun _ h => h)
    (String.toList "a \r\nb") (String.toList "a\nb") (by rfl)

/-!
CanonJSON data model.  A parsed Python value as produced by `json.loads` in
this program: floats cannot carry arbitrary values (every numeric token with a
fractional part or exponent aborts parsing through `parse_float`), but the
parser's `parse_constant` path still produces the three float constants
`nan`, `inf`, `-inf` for the literals `NaN` / `Infinity` / `-Infinity`.
Python strings are modelled as `List Char` (sequences of Unicode scalar
values); dicts as key-value lists in insertion order with unique keys
maintained by `dictInsert`.
-/

inductive PyFloat where
  | nan
  | inf
  | neginf
deriving DecidableEq, Repr

inductive PyJson where
  | null
  | bool (b : Bool)
  | int (n : Int)
  | float (f : PyFloat)
  | str (s : List Char)
  | list (xs : List PyJson)
  | dict (kvs : List (List Char × PyJson))

/-- Induction principle for the nested inductive `PyJson` that provides
hypotheses for all list elements and all dict values. -/
theorem PyJson.inductionOn {P : PyJson → Prop}
    (hnull : P .null) (hbool : ∀ b, P (.bool b)) (hint : ∀ n, P (.int n))
    (hfloat : ∀ f, P (.float f)) (hstr : ∀ s, P (.str s))
    (hlist : ∀ xs, (∀ x ∈ xs, P x) → P (.list xs))
    (hdict : ∀ kvs, (∀ k v, (k, v) ∈ kvs → P v) → P (.dict kvs)) :
    ∀ v, P v
  | .null => hnull
  | .bool b => hbool b
  | .int n => hint n
  | .float f => hfloat f
  | .str s => hstr s
  | .list xs => hlist xs (fun x hx =>
      PyJson.inductionOn hnull hbool hint hfloat hstr hlist hdict x)
  | .dict kvs => hdict kvs (fun k v hkv =>
      PyJson.inductionOn hnull hbool hint hfloat hstr hlist hdict v)
termination_by v => sizeOf v
decreasing_by
  · have := List.sizeOf_lt_of_mem hx
    simp only [PyJson.list.sizeOf_spec]
    omega
  · have h1 := List.sizeOf_lt_of_mem hkv
    have h2 : sizeOf (k, v) = 1 + sizeOf k + sizeOf v := rfl
    simp only [PyJson.dict.sizeOf_spec]
    omega

/-- Python lexicographic string order (by code point), `s <= t`. -/
def charsLe : List Char → List Char → Bool
  | [], _ => true
  | _ :: _, [] => false
  | a :: as, b :: bs =>
    if a < b then true
    else if a = b then charsLe as bs
    else false

/-- Python lexicographic string order (by code point), `s < t`. -/
def charsLt : List Char → List Char → Bool
  | [], [] => false
  | [], _ :: _ => true
  | _ :: _, [] => false
  | a :: as, b :: bs =>
    if a < b then true
    else if a = b then charsLt as bs
    else false

theorem charsLe_total : ∀ s t : List Char, charsLe s t || charsLe t s
  | [], _ => by simp [charsLe]
  | _ :: _, [] => by simp [charsLe]
  | a :: as, b :: bs => by
    rcases lt_trichotomy a b with h | h | h
    · simp [charsLe, h]
    · subst h
      simpa [charsLe] using charsLe_total as bs
    · simp [charsLe, h, lt_asymm h, (ne_of_gt h)]

theorem charsLe_refl : ∀ s : List Char, charsLe s s
  | [] => rfl
  | a :: as => by simp [charsLe, charsLe_refl as]

theorem charsLe_trans :
    ∀ {s t u : List Char}, charsLe s t → charsLe t u → charsLe s u := by
  intro s
  induction s with
  | nil => intro t u _ _; simp [charsLe]
  | cons a as ih =>
    intro t u hst htu
    cases t with
    | nil => simp [charsLe] at hst
    | cons b bs =>
      cases u with
      | nil => simp [charsLe] at htu
      | cons c cs =>
        unfold charsLe at hst htu ⊢
        rcases lt_trichotomy a b with hab | hab | hab
        · rcases lt_trichotomy b c with hbc | hbc | hbc
          · simp [lt_trans hab hbc]
          · subst hbc; simp [hab]
          · rw [if_neg (lt_asymm hbc), if_neg (ne_of_gt hbc)] at htu
            simp at htu
        · subst hab
          rcases lt_trichotomy a c with hbc | hbc | hbc
          · simp [hbc]
          · subst hbc
            rw [if_neg (lt_irrefl a), if_pos rfl] at hst htu ⊢
            exact ih hst htu
          · rw [if_neg (lt_asymm hbc), if_neg (ne_of_gt hbc)] at htu
            simp at htu
        · rw [if_neg (lt_asymm hab), if_neg (ne_of_gt hab)] at hst
          simp at hst

theorem charsLe_antisymm :
    ∀ {s t : List Char}, charsLe s t → charsLe t s → s = t := by
  intro s
  induction s with
  | nil => intro t _ hts; cases t with
    | nil => rfl
    | cons b bs => simp [charsLe] at hts
  | cons a as ih =>
    intro t hst hts
    cases t with
    | nil => simp [charsLe] at hst
    | cons b bs =>
      unfold charsLe at hst hts
      rcases lt_trichotomy a b with hab | hab | hab
      · rw [if_neg (lt_asymm hab), if_neg (ne_of_gt hab)] at hts
        simp at hts
      · subst hab
        rw [if_neg (lt_irrefl a), if_pos rfl] at hst hts
        rw [ih hst hts]
      · rw [if_neg (lt_asymm hab), if_neg (ne_of_gt hab)] at hst
        simp at hst

theorem charsLt_of_charsLe_ne :
    ∀ {s t : List Char}, charsLe s t → s ≠ t → charsLt s t := by
  intro s
  induction s with
  | nil => intro t _ hne; cases t with
    | nil => exact absurd rfl hne
    | cons b bs => simp [charsLt]
  | cons a as ih =>
    intro t hle hne
    cases t with
    | nil => simp [charsLe] at hle
    | cons b bs =>
      unfold charsLe at hle
      unfold charsLt
      rcases lt_trichotomy a b with hab | hab | hab
      · simp [hab]
      · subst hab
        rw [if_neg (lt_irrefl a), if_pos rfl] at hle ⊢
        exact ih hle (fun h => hne (h ▸ rfl))
      · rw [if_neg (lt_asymm hab), if_neg (ne_of_gt hab)] at hle
        simp at hle

theorem charsLe_of_charsLt :
    ∀ {s t : List Char}, charsLt s t → charsLe s t := by
  intro s
  induction s with
  | nil => intro t _; simp [charsLe]
  | cons a as ih =>
    intro t hlt
    cases t with
    | nil => simp [charsLt] at hlt
    | cons b bs =>
      unfold charsLt at hlt
      unfold charsLe
      rcases lt_trichotomy a b with hab | hab | hab
      · simp [hab]
      · subst hab
        rw [if_neg (lt_irrefl a), if_pos rfl] at hlt ⊢
        exact ih hlt
      · rw [if_neg (lt_asymm hab), if_neg (ne_of_gt hab)] at hlt
        simp at hlt

theorem charsLt_irrefl : ∀ s : List Char, ¬ charsLt s s
  | [] => by simp [charsLt]
  | a :: as => by
    unfold charsLt
    rw [if_neg (lt_irrefl a), if_pos rfl]
    exact charsLt_irrefl as

def lbrace : Char := Char.ofNat 123

def rbrace : Char := Char.ofNat 125

def digitChar : Nat → Char
  | 0 => '0' | 1 => '1' | 2 => '2' | 3 => '3' | 4 => '4'
  | 5 => '5' | 6 => '6' | 7 => '7' | 8 => '8' | _ => '9'

def hexChar : Nat → Char
  | 0 => '0' | 1 => '1' | 2 => '2' | 3 => '3' | 4 => '4'
  | 5 => '5' | 6 => '6' | 7 => '7' | 8 => '8' | 9 => '9'
  | 10 => 'a' | 11 => 'b' | 12 => 'c' | 13 => 'd' | 14 => 'e' | _ => 'f'

def isDigitChar (c : Char) : Bool := 48 ≤ c.toNat ∧ c.toNat ≤ 57

/-- Decimal representation of a natural number (Python `repr` of a
non-negative int): no leading zeros, `"0"` for 0. -/
def natDump (n : Nat) : List Char :=
  if h : n < 10 then [digitChar n]
  else natDump (n / 10) ++ [digitChar (n % 10)]
termination_by n
decreasing_by
  exact Nat.div_lt_self (by omega) (by omega)

/-- Python `repr` of an int: `'-'` prefix for negative values. -/
def intDump (n : Int) : List Char :=
  if n < 0 then '-' :: natDump (-n).toNat else natDump n.toNat

/-- `\uXXXX` escape with four lowercase hex digits. -/
def uEsc (n : Nat) : List Char :=
  ['\\', 'u', hexChar (n / 4096 % 16), hexChar (n / 256 % 16),
   hexChar (n / 16 % 16), hexChar (n % 16)]

/-- The `ensure_ascii` escaping of one character in `json.dumps`: the short
escapes of the ESCAPE_DCT table, printable ASCII kept as-is, every other
character (including U+007F and all non-ASCII) escaped as `\uXXXX`, astral
characters as a UTF-16 surrogate pair of escapes. -/
def escChar (c : Char) : List Char :=
  if c = '\\' then ['\\', '\\']
  else if c = '"' then ['\\', '"']
  else if c = Char.ofNat 8 then ['\\', 'b']
  else if c = Char.ofNat 12 then ['\\', 'f']
  else if c = '\n' then ['\\', 'n']
  else if c = '\r' then ['\\', 'r']
  else if c = '\t' then ['\\', 't']
  else if 0x20 ≤ c.toNat ∧ c.toNat ≤ 0x7E then [c]
  else if c.toNat < 0x10000 then uEsc c.toNat
  else uEsc (0xD800 + (c.toNat - 0x10000) / 0x400) ++
       uEsc (0xDC00 + (c.toNat - 0x10000) % 0x400)

def escBody (s : List Char) : List Char := s.flatMap escChar

/-- Serialization of a Python string by `json.dumps` (`ensure_ascii=True`). -/
def strDump (s : List Char) : List Char := '"' :: escBody s ++ ['"']

/-- The ordering `items.sort(key=lambda kv: kv[0])` sorts by. -/
def pairKeyLe (a b : List Char × PyJson) : Bool := charsLe a.1 b.1

mutual

/-- `json.dumps(obj, ensure_ascii=True, sort_keys=True, separators=(",", ":"))`
on a parsed value: compact separators, escaped strings, object keys sorted. -/
def dumps : PyJson → List Char
  | .null => String.toList "null"
  | .bool true => String.toList "true"
  | .bool false => String.toList "false"
  | .int n => intDump n
  | .float .nan => String.toList "NaN"
  | .float .inf => String.toList "Infinity"
  | .float .neginf => String.toList "-Infinity"
  | .str s => strDump s
  | .list xs => '[' :: dumpsList xs ++ [']']
  | .dict kvs => lbrace :: dumpsItems (kvs.mergeSort pairKeyLe) ++ [rbrace]
termination_by v => sizeOf v
decreasing_by
  all_goals simp_wf
  all_goals try omega
  have := (List.mergeSort_perm kvs pairKeyLe).sizeOf_eq_sizeOf
  omega

def dumpsList : List PyJson → List Char
  | [] => []
  | [x] => dumps x
  | x :: y :: rest => dumps x ++ ',' :: dumpsList (y :: rest)
termination_by xs => sizeOf xs
decreasing_by
  all_goals simp_wf
  all_goals omega

def dumpsItems : List (List Char × PyJson) → List Char
  | [] => []
  | [(k, v)] => strDump k ++ ':' :: dumps v
  | (k, v) :: p :: rest => strDump k ++ ':' :: dumps v ++ ',' :: dumpsItems (p :: rest)
termination_by l => sizeOf l
decreasing_by
  all_goals simp_wf
  all_goals omega

end

def rankOf : PyJson → Nat
  | .null => 0
  | .bool _ => 1
  | .int _ => 2
  | .str _ => 3
  | _ => 4

def boolInt : Bool → Int
  | false => 0
  | true => 1

/-- Second component of the `elem_key` tuple, compared within one type rank:
the empty string for null, `int(e)` for bools, the int itself, the string
itself, or the canonical serialization for everything else. -/
def secLe (a b : PyJson) : Bool :=
  match a, b with
  | .null, .null => true
  | .bool x, .bool y => boolInt x ≤ boolInt y
  | .int m, .int n => m ≤ n
  | .str s, .str t => charsLe s t
  | a, b => charsLe (dumps a) (dumps b)

/-- Comparison of `elem_key` tuples in Python tuple order: first the type
rank, then within a rank the second key component. -/
def elemLe (a b : PyJson) : Bool :=
  if rankOf a < rankOf b then true
  else if rankOf b < rankOf a then false
  else secLe a b

/-- The dict comprehension `{k: v for k, v in items}`: key positions follow
the first occurrence, values follow the last occurrence. -/
def dictFromItems : List (List Char × PyJson) → List (List Char × PyJson)
  | [] => []
  | (k, v) :: rest =>
    (k, ((rest.filter (fun p => p.1 = k)).foldl (fun _ p => p.2) v)) ::
      dictFromItems (rest.filter (fun p => ¬ p.1 = k))
termination_by l => l.length
decreasing_by
  have := List.length_filter_le (fun p => decide (¬ p.1 = k)) rest
  simp only [List.length_cons]
  omega

mutual

/-- `canonicalize_json_obj`: dict values canonicalized in iteration order and
items sorted by key; list elements canonicalized then sorted by `elem_key`;
floats rejected; scalars unchanged.  (The Python `NON_STRING_KEY` and
`UNSUPPORTED_JSON_TYPE` raises are unrepresentable here: dict keys are
strings by construction and `PyJson` covers exactly the runtime types a
parsed value can have.) -/
def canonicalize_json_obj : PyJson → Except String PyJson
  | .dict kvs => do
      let items ← canonItems kvs
      pure (.dict (dictFromItems (items.mergeSort pairKeyLe)))
  | .list xs => do
      let elems ← canonElems xs
      pure (.list (elems.mergeSort elemLe))
  | .float _ => .error "FLOAT_FORBIDDEN"
  | .int n => .ok (.int n)
  | .str s => .ok (.str s)
  | .bool b => .ok (.bool b)
  | .null => .ok .null
termination_by v => sizeOf v
decreasing_by
  all_goals simp_wf
  all_goals omega

def canonElems : List PyJson → Except String (List PyJson)
  | [] => .ok []
  | x :: xs => do
      let c ← canonicalize_json_obj x
      let cs ← canonElems xs
      pure (c :: cs)
termination_by xs => sizeOf xs
decreasing_by
  all_goals simp_wf
  all_goals omega

def canonItems : List (List Char × PyJson) → Except String (List (List Char × PyJson))
  | [] => .ok []
  | (k, v) :: rest => do
      let c ← canonicalize_json_obj v
      let cs ← canonItems rest
      pure ((k, c) :: cs)
termination_by l => sizeOf l
decreasing_by
  all_goals simp_wf
  all_goals omega

end

mutual

def noFloat : PyJson → Bool
  | .null => true
  | .bool _ => true
  | .int _ => true
  | .str _ => true
  | .float _ => false
  | .list xs => noFloatList xs
  | .dict kvs => noFloatItems kvs
termination_by v => sizeOf v
decreasing_by
  all_goals simp_wf
  all_goals omega

def noFloatList : List PyJson → Bool
  | [] => true
  | x :: xs => noFloat x && noFloatList xs
termination_by xs => sizeOf xs
decreasing_by
  all_goals simp_wf
  all_goals omega

def noFloatItems : List (List Char × PyJson) → Bool
  | [] => true
  | (_, v) :: rest => noFloat v && noFloatItems rest
termination_by l => sizeOf l
decreasing_by
  all_goals simp_wf
  all_goals omega

end

/-!
Injectivity of `dumps` on canonically-shaped float-free values.  This is the
fact that makes the type-rank ordering's rank-4 tie-break (comparison of
canonical serializations) antisymmetric, which in turn makes the sorted form
of a list independent of the input order of its elements.
-/

theorem char_toNat_inj {a b : Char} (h : a.toNat = b.toNat) : a = b := by
  have ha : Char.ofNat a.toNat = a := Char.ofNat_toNat a
  have hb : Char.ofNat b.toNat = b := Char.ofNat_toNat b
  rw [← ha, ← hb, h]

theorem char_valid_nat (a : Char) :
    a.toNat < 0xd800 ∨ (0xdfff < a.toNat ∧ a.toNat < 0x110000) := a.valid

theorem digitChar_isDigit {n : Nat} (h : n < 10) : isDigitChar (digitChar n) = true := by
  interval_cases n <;> decide

theorem digitChar_inj {n m : Nat} (hn : n < 10) (hm : m < 10) :
    digitChar n = digitChar m → n = m := by
  interval_cases n <;> interval_cases m <;> decide

theorem hexChar_inj {n m : Nat} (hn : n < 16) (hm : m < 16) :
    hexChar n = hexChar m → n = m := by
  interval_cases n <;> interval_cases m <;> decide

theorem natDump_ne_nil (n : Nat) : natDump n ≠ [] := by
  rw [natDump]
  split
  · exact List.cons_ne_nil _ _
  · exact List.append_ne_nil_of_right_ne_nil _ (List.cons_ne_nil _ _)

theorem natDump_digits : ∀ n, ∀ c ∈ natDump n, isDigitChar c = true := by
  intro n
  induction n using Nat.strong_induction_on with
  | _ n ih =>
    intro c hc
    rw [natDump] at hc
    split at hc
    · rcases List.mem_singleton.mp hc with rfl
      exact digitChar_isDigit (by omega)
    · rcases List.mem_append.mp hc with h1 | h1
      · exact ih (n / 10) (Nat.div_lt_self (by omega) (by omega)) c h1
      · have h2 := List.mem_singleton.mp h1
        subst h2
        exact digitChar_isDigit (Nat.mod_lt _ (by omega))

theorem natDump_inj : ∀ {a b : Nat}, natDump a = natDump b → a = b := by
  intro a
  induction a using Nat.strong_induction_on with
  | _ a ih =>
    intro b h
    by_cases ha : a < 10
    · by_cases hb : b < 10
      · rw [show natDump a = [digitChar a] from by rw [natDump, dif_pos ha],
          show natDump b = [digitChar b] from by rw [natDump, dif_pos hb]] at h
        exact digitChar_inj ha hb (List.singleton_inj.mp h)
      · rw [show natDump a = [digitChar a] from by rw [natDump, dif_pos ha],
          show natDump b = natDump (b / 10) ++ [digitChar (b % 10)] from by
            rw [natDump, dif_neg hb]] at h
        have hlen := congrArg List.length h
        rcases List.exists_cons_of_ne_nil (natDump_ne_nil (b / 10)) with ⟨c, t, hct⟩
        rw [hct] at hlen
        simp at hlen
    · by_cases hb : b < 10
      · rw [show natDump a = natDump (a / 10) ++ [digitChar (a % 10)] from by
            rw [natDump, dif_neg ha],
          show natDump b = [digitChar b] from by rw [natDump, dif_pos hb]] at h
        have hlen := congrArg List.length h
        rcases List.exists_cons_of_ne_nil (natDump_ne_nil (a / 10)) with ⟨c, t, hct⟩
        rw [hct] at hlen
        simp at hlen
      · rw [show natDump a = natDump (a / 10) ++ [digitChar (a % 10)] from by
            rw [natDump, dif_neg ha],
          show natDump b = natDump (b / 10) ++ [digitChar (b % 10)] from by
            rw [natDump, dif_neg hb]] at h
        rcases List.append_inj h (by
          have h1 := congrArg List.length h
          simp at h1
          omega) with ⟨hfront, hback⟩
        have h2 : a / 10 = b / 10 :=
          ih (a / 10) (Nat.div_lt_self (by omega) (by omega)) hfront
        have h3 : a % 10 = b % 10 :=
          digitChar_inj (Nat.mod_lt _ (by omega)) (Nat.mod_lt _ (by omega))
            (List.singleton_inj.mp hback)
        omega

/-- The characters that can legitimately follow a serialized value inside a
larger serialization (or nothing at all, at top level). -/
def delimB : List Char → Bool
  | [] => true
  | c :: _ => c = ',' || c = ']' || c = rbrace

theorem digit_not_delim {c : Char} (hd : isDigitChar c = true) :
    (c = ',' || c = ']' || c = rbrace) = false := by
  unfold isDigitChar at hd
  simp only [decide_eq_true_eq] at hd
  simp only [Bool.or_eq_false_iff, decide_eq_false_iff_not]
  refine ⟨⟨fun h => ?_, fun h => ?_⟩, fun h => ?_⟩ <;>
    · subst h; revert hd; decide

theorem digit_run_cancel :
    ∀ (d1 d2 r s : List Char),
      (∀ c ∈ d1, isDigitChar c = true) → (∀ c ∈ d2, isDigitChar c = true) →
      delimB r = true → delimB s = true → d1 ++ r = d2 ++ s →
      d1 = d2 ∧ r = s := by
  intro d1
  induction d1 with
  | nil =>
    intro d2 r s _ hd2 hr _ h
    cases d2 with
    | nil => exact ⟨rfl, h⟩
    | cons c t =>
      simp only [List.nil_append, List.cons_append] at h
      subst h
      simp only [delimB] at hr
      rw [digit_not_delim (hd2 c (List.mem_cons_self c t))] at hr
      exact absurd hr (by simp)
  | cons a d1' ih =>
    intro d2 r s hd1 hd2 hr hs h
    cases d2 with
    | nil =>
      simp only [List.cons_append, List.nil_append] at h
      subst h
      simp only [delimB] at hs
      rw [digit_not_delim (hd1 a (List.mem_cons_self a d1'))] at hs
      exact absurd hs (by simp)
    | cons b d2' =>
      simp only [List.cons_append, List.cons.injEq] at h
      obtain ⟨hab, ht⟩ := h
      subst hab
      rcases ih d2' r s (fun c hc => hd1 c (List.mem_cons_of_mem a hc))
          (fun c hc => hd2 c (List.mem_cons_of_mem a hc)) hr hs ht with ⟨h1, h2⟩
      exact ⟨h1 ▸ rfl, h2⟩

theorem natDump_cancel {a b : Nat} {r s : List Char}
    (hr : delimB r = true) (hs : delimB s = true)
    (h : natDump a ++ r = natDump b ++ s) : a = b ∧ r = s := by
  rcases digit_run_cancel (natDump a) (natDump b) r s
      (natDump_digits a) (natDump_digits b) hr hs h with ⟨h1, h2⟩
  exact ⟨natDump_inj h1, h2⟩

theorem intDump_cancel {a b : Int} {r s : List Char}
    (hr : delimB r = true) (hs : delimB s = true)
    (h : intDump a ++ r = intDump b ++ s) : a = b ∧ r = s := by
  unfold intDump at h
  by_cases ha : a < 0 <;> by_cases hb : b < 0
  · rw [if_pos ha, if_pos hb] at h
    simp only [List.cons_append, List.cons.injEq] at h
    rcases natDump_cancel hr hs h.2 with ⟨h1, h2⟩
    refine ⟨?_, h2⟩
    omega
  · rw [if_pos ha, if_neg hb] at h
    simp only [List.cons_append] at h
    rcases List.exists_cons_of_ne_nil (natDump_ne_nil b.toNat) with ⟨c, t, hct⟩
    rw [hct] at h
    simp only [List.cons_append, List.cons.injEq] at h
    have hd : isDigitChar c = true :=
      natDump_digits b.toNat c (hct ▸ List.mem_cons_self c t)
    rw [← h.1] at hd
    exact absurd hd (by decide)
  · rw [if_neg ha, if_pos hb] at h
    rcases List.exists_cons_of_ne_nil (natDump_ne_nil a.toNat) with ⟨c, t, hct⟩
    rw [hct] at h
    simp only [List.cons_append, List.cons.injEq] at h
    have hd : isDigitChar c = true :=
      natDump_digits a.toNat c (hct ▸ List.mem_cons_self c t)
    rw [h.1] at hd
    exact absurd hd (by decide)
  · rw [if_neg ha, if_neg hb] at h
    rcases natDump_cancel hr hs h with ⟨h1, h2⟩
    refine ⟨?_, h2⟩
    omega

/-- Decodes the second character of a two-character short escape back to the
escaped character. -/
def shortDec (code : Char) : Option Char :=
  if code = '\\' then some '\\'
  else if code = '"' then some '"'
  else if code = 'b' then some (Char.ofNat 8)
  else if code = 'f' then some (Char.ofNat 12)
  else if code = 'n' then some '\n'
  else if code = 'r' then some '\r'
  else if code = 't' then some '\t'
  else none

theorem escChar_shape (a : Char) :
    (∃ code, escChar a = ['\\', code] ∧ code ≠ 'u' ∧ shortDec code = some a)
    ∨ (escChar a = [a] ∧ a ≠ '\\' ∧ a ≠ '"')
    ∨ (escChar a = uEsc a.toNat ∧ a.toNat < 0x10000)
    ∨ (escChar a = uEsc (0xD800 + (a.toNat - 0x10000) / 0x400) ++
          uEsc (0xDC00 + (a.toNat - 0x10000) % 0x400) ∧ 0x10000 ≤ a.toNat) := by
  unfold escChar
  by_cases h1 : a = '\\'
  · subst h1; left; exact ⟨'\\', by simp [shortDec], by decide, by simp [shortDec]⟩
  rw [if_neg h1]
  by_cases h2 : a = '"'
  · subst h2; left; exact ⟨'"', by simp, by decide, by simp [shortDec]⟩
  rw [if_neg h2]
  by_cases h3 : a = Char.ofNat 8
  · subst h3; left; exact ⟨'b', by simp, by decide, by simp [shortDec]⟩
  rw [if_neg h3]
  by_cases h4 : a = Char.ofNat 12
  · subst h4; left; exact ⟨'f', by simp, by decide, by simp [shortDec]⟩
  rw [if_neg h4]
  by_cases h5 : a = '\n'
  · subst h5; left; exact ⟨'n', by simp, by decide, by simp [shortDec]⟩
  rw [if_neg h5]
  by_cases h6 : a = '\r'
  · subst h6; left; exact ⟨'r', by simp, by decide, by simp [shortDec]⟩
  rw [if_neg h6]
  by_cases h7 : a = '\t'
  · subst h7; left; exact ⟨'t', by simp, by decide, by simp [shortDec]⟩
  rw [if_neg h7]
  by_cases h8 : 0x20 ≤ a.toNat ∧ a.toNat ≤ 0x7E
  · rw [if_pos h8]; right; left; exact ⟨rfl, h1, h2⟩
  rw [if_neg h8]
  by_cases h9 : a.toNat < 0x10000
  · rw [if_pos h9]; right; right; left; exact ⟨rfl, h9⟩
  · rw [if_neg h9]; right; right; right; exact ⟨rfl, by omega⟩

theorem uEsc_cancel {x y : Nat} {u1 u2 : List Char}
    (hx : x < 0x10000) (hy : y < 0x10000)
    (h : uEsc x ++ u1 = uEsc y ++ u2) : x = y ∧ u1 = u2 := by
  unfold uEsc at h
  simp only [List.cons_append, List.cons.injEq, List.nil_append] at h
  obtain ⟨_, _, e1, e2, e3, e4, htail⟩ := h
  have d1 := hexChar_inj (Nat.mod_lt _ (by omega)) (Nat.mod_lt _ (by omega)) e1
  have d2 := hexChar_inj (Nat.mod_lt _ (by omega)) (Nat.mod_lt _ (by omega)) e2
  have d3 := hexChar_inj (Nat.mod_lt _ (by omega)) (Nat.mod_lt _ (by omega)) e3
  have d4 := hexChar_inj (Nat.mod_lt _ (by omega)) (Nat.mod_lt _ (by omega)) e4
  exact ⟨by omega, htail⟩

theorem escChar_cancel : ∀ (a b : Char) (u1 u2 : List Char),
    escChar a ++ u1 = escChar b ++ u2 → a = b ∧ u1 = u2 := by
  intro a b u1 u2 h
  rcases escChar_shape a with ⟨ca, hsa, hua, hda⟩ | ⟨hsa, ha1, ha2⟩ |
      ⟨hsa, hva⟩ | ⟨hsa, hva⟩ <;>
    rcases escChar_shape b with ⟨cb, hsb, hub, hdb⟩ | ⟨hsb, hb1, hb2⟩ |
        ⟨hsb, hvb⟩ | ⟨hsb, hvb⟩ <;>
    rw [hsa, hsb] at h
  · simp only [List.cons_append, List.cons.injEq, List.nil_append] at h
    obtain ⟨_, hcode, htail⟩ := h
    subst hcode
    rw [hda] at hdb
    exact ⟨Option.some.inj hdb, htail⟩
  · simp only [List.cons_append, List.cons.injEq] at h
    exact absurd h.1.symm hb1
  · unfold uEsc at h
    simp only [List.cons_append, List.cons.injEq] at h
    exact absurd h.2.1 hua
  · unfold uEsc at h
    simp only [List.cons_append, List.cons.injEq] at h
    exact absurd h.2.1 hua
  · simp only [List.cons_append, List.cons.injEq] at h
    exact absurd h.1 ha1
  · simp only [List.cons_append, List.cons.injEq] at h
    exact ⟨h.1, h.2⟩
  · unfold uEsc at h
    simp only [List.cons_append, List.cons.injEq] at h
    exact absurd h.1 ha1
  · unfold uEsc at h
    simp only [List.cons_append, List.cons.injEq] at h
    exact absurd h.1 ha1
  · unfold uEsc at h
    simp only [List.cons_append, List.cons.injEq] at h
    exact absurd h.2.1.symm hub
  · unfold uEsc at h
    simp only [List.cons_append, List.cons.injEq] at h
    exact absurd h.1.symm hb1
  · rcases uEsc_cancel hva hvb h with ⟨hv, htail⟩
    exact ⟨char_toNat_inj hv, htail⟩
  · have hbu : b.toNat < 0x110000 := by rcases char_valid_nat b with h2 | h2 <;> omega
    rw [List.append_assoc] at h
    rcases uEsc_cancel hva (by omega : 0xD800 + (b.toNat - 0x10000) / 0x400 < 0x10000) h
      with ⟨hv, _⟩
    rcases char_valid_nat a with hv2 | hv2 <;> omega
  · unfold uEsc at h
    simp only [List.cons_append, List.cons.injEq] at h
    exact absurd h.2.1.symm hub
  · unfold uEsc at h
    simp only [List.cons_append, List.cons.injEq] at h
    exact absurd h.1.symm hb1
  · have hau : a.toNat < 0x110000 := by rcases char_valid_nat a with h2 | h2 <;> omega
    rw [List.append_assoc] at h
    rcases uEsc_cancel (by omega : 0xD800 + (a.toNat - 0x10000) / 0x400 < 0x10000) hvb h
      with ⟨hv, _⟩
    rcases char_valid_nat b with hv2 | hv2 <;> omega
  · have hau : a.toNat < 0x110000 := by rcases char_valid_nat a with h2 | h2 <;> omega
    have hbu : b.toNat < 0x110000 := by rcases char_valid_nat b with h2 | h2 <;> omega
    rw [List.append_assoc, List.append_assoc] at h
    rcases uEsc_cancel (by omega : 0xD800 + (a.toNat - 0x10000) / 0x400 < 0x10000)
      (by omega : 0xD800 + (b.toNat - 0x10000) / 0x400 < 0x10000) h with ⟨hhi, h2⟩
    rcases uEsc_cancel (by omega : 0xDC00 + (a.toNat - 0x10000) % 0x400 < 0x10000)
      (by omega : 0xDC00 + (b.toNat - 0x10000) % 0x400 < 0x10000) h2 with ⟨hlo, htail⟩
    refine ⟨char_toNat_inj ?_, htail⟩
    omega

theorem escChar_ne_nil (a : Char) : escChar a ≠ [] := by
  rcases escChar_shape a with ⟨ca, hsa, _, _⟩ | ⟨hsa, _, _⟩ | ⟨hsa, _⟩ | ⟨hsa, _⟩ <;>
    rw [hsa]
  · exact List.cons_ne_nil _ _
  · exact List.cons_ne_nil _ _
  · unfold uEsc; exact List.cons_ne_nil _ _
  · unfold uEsc; exact List.cons_ne_nil _ _

theorem escChar_head_ne_quote (a : Char) :
    ∀ c t, escChar a = c :: t → c ≠ '"' := by
  intro c t hct
  rcases escChar_shape a with ⟨ca, hsa, _, _⟩ | ⟨hsa, _, ha2⟩ | ⟨hsa, _⟩ | ⟨hsa, _⟩ <;>
    rw [hsa] at hct
  · rcases List.cons.inj hct with ⟨h1, _⟩; rw [← h1]; decide
  · rcases List.cons.inj hct with ⟨h1, _⟩; rw [← h1]; exact ha2
  · unfold uEsc at hct
    rcases List.cons.inj hct with ⟨h1, _⟩; rw [← h1]; decide
  · unfold uEsc at hct
    simp only [List.cons_append, List.cons.injEq] at hct
    rw [← hct.1]; decide

theorem escBody_cancel : ∀ (s1 s2 t1 t2 : List Char),
    escBody s1 ++ '"' :: t1 = escBody s2 ++ '"' :: t2 → s1 = s2 ∧ t1 = t2 := by
  intro s1
  induction s1 with
  | nil =>
    intro s2 t1 t2 h
    cases s2 with
    | nil =>
      simp only [escBody, List.flatMap_nil, List.nil_append, List.cons.injEq] at h
      exact ⟨rfl, h.2⟩
    | cons b s2' =>
      simp only [escBody, List.flatMap_nil, List.flatMap_cons, List.nil_append,
        List.append_assoc] at h
      rcases hb : escChar b with _ | ⟨c, t⟩
      · exact absurd hb (escChar_ne_nil b)
      · rw [hb] at h
        simp only [List.cons_append, List.cons.injEq] at h
        exact absurd h.1 (escChar_head_ne_quote b c t hb).symm
  | cons a s1' ih =>
    intro s2 t1 t2 h
    cases s2 with
    | nil =>
      simp only [escBody, List.flatMap_nil, List.flatMap_cons, List.nil_append,
        List.append_assoc] at h
      rcases ha : escChar a with _ | ⟨c, t⟩
      · exact absurd ha (escChar_ne_nil a)
      · rw [ha] at h
        simp only [List.cons_append, List.cons.injEq] at h
        exact absurd h.1 (escChar_head_ne_quote a c t ha)
    | cons b s2' =>
      simp only [escBody, List.flatMap_cons, List.append_assoc] at h
      rcases escChar_cancel a b _ _ h with ⟨hab, htail⟩
      subst hab
      rcases ih s2' t1 t2 (by simpa [escBody] using htail) with ⟨h1, h2⟩
      exact ⟨h1 ▸ rfl, h2⟩

theorem strDump_cancel {s1 s2 t1 t2 : List Char}
    (h : strDump s1 ++ t1 = strDump s2 ++ t2) : s1 = s2 ∧ t1 = t2 := by
  unfold strDump at h
  simp only [List.cons_append, List.append_assoc, List.cons.injEq,
    List.nil_append] at h
  exact escBody_cancel s1 s2 t1 t2 h.2

/-- Shape constraint under which `dumps` is injective: no floats, and every
dict (at any depth) has strictly increasing keys.  Every output of
`canonicalize_json_obj` has this shape. -/
inductive DumpWF : PyJson → Prop where
  | null : DumpWF .null
  | bool (b : Bool) : DumpWF (.bool b)
  | int (n : Int) : DumpWF (.int n)
  | str (s : List Char) : DumpWF (.str s)
  | list (xs : List PyJson) : (∀ x ∈ xs, DumpWF x) → DumpWF (.list xs)
  | dict (kvs : List (List Char × PyJson)) :
      (∀ k v, (k, v) ∈ kvs → DumpWF v) →
      kvs.Pairwise (fun a b => charsLt a.1 b.1 = true) → DumpWF (.dict kvs)

/-- Constructor discriminator recovered from the first serialized character. -/
def ctorClass : PyJson → Nat
  | .null => 0
  | .bool true => 1
  | .bool false => 2
  | .str _ => 3
  | .list _ => 4
  | .dict _ => 5
  | .int _ => 6
  | .float _ => 7

def classOf (c : Char) : Nat :=
  if c = 'n' then 0
  else if c = 't' then 1
  else if c = 'f' then 2
  else if c = '"' then 3
  else if c = '[' then 4
  else if c = lbrace then 5
  else 6

def notDelimColon (c : Char) : Prop :=
  c ≠ ',' ∧ c ≠ ']' ∧ c ≠ rbrace ∧ c ≠ ':'

theorem digit_classOf {c : Char} (h : isDigitChar c = true) : classOf c = 6 := by
  unfold classOf
  rw [if_neg (fun hc => absurd (hc ▸ h) (by decide)),
    if_neg (fun hc => absurd (hc ▸ h) (by decide)),
    if_neg (fun hc => absurd (hc ▸ h) (by decide)),
    if_neg (fun hc => absurd (hc ▸ h) (by decide)),
    if_neg (fun hc => absurd (hc ▸ h) (by decide)),
    if_neg (fun hc => absurd (hc ▸ h) (by decide))]

theorem digit_notDelimColon {c : Char} (h : isDigitChar c = true) :
    notDelimColon c := by
  refine ⟨fun hc => absurd (hc ▸ h) (by decide),
    fun hc => absurd (hc ▸ h) (by decide),
    fun hc => absurd (hc ▸ h) (by decide),
    fun hc => absurd (hc ▸ h) (by decide)⟩

theorem pairKeyLe_of_charsLt :
    ∀ (a b : List Char × PyJson), charsLt a.1 b.1 = true → pairKeyLe a b = true := by
  intro a b h
  exact charsLe_of_charsLt h

theorem dumps_list_eq (xs : List PyJson) :
    dumps (.list xs) = '[' :: (dumpsList xs ++ [']']) := by
  rw [dumps, List.cons_append]

theorem dumps_dict_sorted {kvs : List (List Char × PyJson)}
    (h : kvs.Pairwise (fun a b => charsLt a.1 b.1 = true)) :
    dumps (.dict kvs) = lbrace :: (dumpsItems kvs ++ [rbrace]) := by
  rw [dumps, List.mergeSort_of_sorted (h.imp (fun hab => pairKeyLe_of_charsLt _ _ hab)),
    List.cons_append]

/-- First character of a serialized value: it identifies the constructor and
is never a separator, closing bracket, closing brace, or colon. -/
theorem dumps_head : ∀ v, DumpWF v →
    ∃ c t, dumps v = c :: t ∧ classOf c = ctorClass v ∧ notDelimColon c := by
  intro v hv
  cases hv with
  | null =>
    exact ⟨'n', String.toList "ull", by rw [dumps]; decide, by decide,
      by unfold notDelimColon; decide⟩
  | bool b =>
    cases b with
    | true =>
      exact ⟨'t', String.toList "rue", by rw [dumps]; decide, by decide,
        by unfold notDelimColon; decide⟩
    | false =>
      exact ⟨'f', String.toList "alse", by rw [dumps]; decide, by decide,
        by unfold notDelimColon; decide⟩
  | int n =>
    by_cases hn : n < 0
    · refine ⟨'-', natDump (-n).toNat, ?_, by rfl, by unfold notDelimColon; decide⟩
      rw [dumps]
      unfold intDump
      rw [if_pos hn]
    · rcases List.exists_cons_of_ne_nil (natDump_ne_nil n.toNat) with ⟨c, t, hct⟩
      have hd : isDigitChar c = true :=
        natDump_digits n.toNat c (hct ▸ List.mem_cons_self c t)
      refine ⟨c, t, ?_, digit_classOf hd, digit_notDelimColon hd⟩
      rw [dumps]
      unfold intDump
      rw [if_neg hn, hct]
  | str s =>
    refine ⟨'"', escBody s ++ ['"'], ?_, by rfl, by unfold notDelimColon; decide⟩
    rw [dumps]
    unfold strDump
    rw [List.cons_append]
  | list xs hxs =>
    exact ⟨'[', dumpsList xs ++ [']'], dumps_list_eq xs, by rfl,
      by unfold notDelimColon; decide⟩
  | dict kvs hkvs hsorted =>
    exact ⟨lbrace, dumpsItems kvs ++ [rbrace], dumps_dict_sorted hsorted, by rfl,
      by unfold notDelimColon; decide⟩

/-- A value cancels: its serialization is a prefix-determined chunk. -/
def Cancels (v : PyJson) : Prop :=
  ∀ w, DumpWF w → ∀ r s, delimB r = true → delimB s = true →
    dumps v ++ r = dumps w ++ s → v = w ∧ r = s

theorem dumpsList_cancel :
    ∀ (xs ys : List PyJson), (∀ x ∈ xs, DumpWF x ∧ Cancels x) →
      (∀ y ∈ ys, DumpWF y) → ∀ r s,
      dumpsList xs ++ ']' :: r = dumpsList ys ++ ']' :: s → xs = ys ∧ r = s
  | [], [], _, _, r, s, h => by
    simp only [dumpsList, List.nil_append, List.cons.injEq] at h
    exact ⟨rfl, h.2⟩
  | [], y :: ys, _, hy, r, s, h => by
    rcases dumps_head y (hy y (List.mem_cons_self y ys)) with ⟨c, t, hct, _, hnd⟩
    cases ys with
    | nil =>
      simp only [dumpsList, List.nil_append] at h
      rw [hct] at h
      simp only [List.cons_append, List.cons.injEq] at h
      exact absurd h.1.symm hnd.2.1
    | cons y2 ys2 =>
      simp only [dumpsList, List.nil_append, List.append_assoc, List.cons_append] at h
      rw [hct] at h
      simp only [List.cons_append, List.cons.injEq] at h
      exact absurd h.1.symm hnd.2.1
  | x :: xs, [], hx, _, r, s, h => by
    rcases dumps_head x (hx x (List.mem_cons_self x xs)).1 with ⟨c, t, hct, _, hnd⟩
    cases xs with
    | nil =>
      simp only [dumpsList, List.nil_append] at h
      rw [hct] at h
      simp only [List.cons_append, List.cons.injEq] at h
      exact absurd h.1 hnd.2.1
    | cons x2 xs2 =>
      simp only [dumpsList, List.nil_append, List.append_assoc, List.cons_append] at h
      rw [hct] at h
      simp only [List.cons_append, List.cons.injEq] at h
      exact absurd h.1 hnd.2.1
  | [x], [y], hx, hy, r, s, h => by
    simp only [dumpsList] at h
    rcases (hx x (List.mem_cons_self x [])).2 y (hy y (List.mem_cons_self y []))
        (']' :: r) (']' :: s) (by rw [delimB]; decide) (by rw [delimB]; decide) h
      with ⟨h1, h2⟩
    exact ⟨by rw [h1], (List.cons.inj h2).2⟩
  | [x], y1 :: y2 :: ys, hx, hy, r, s, h => by
    simp only [dumpsList, List.append_assoc, List.cons_append] at h
    rcases (hx x (List.mem_cons_self x [])).2 y1 (hy y1 (List.mem_cons_self _ _))
        (']' :: r) (',' :: (dumpsList (y2 :: ys) ++ ']' :: s))
        (by rw [delimB]; decide) (by rw [delimB]; decide) h with ⟨_, h2⟩
    exact absurd (List.cons.inj h2).1 (by decide)
  | x1 :: x2 :: xs, [y], hx, hy, r, s, h => by
    simp only [dumpsList, List.append_assoc, List.cons_append] at h
    rcases (hx x1 (List.mem_cons_self _ _)).2 y (hy y (List.mem_cons_self y []))
        (',' :: (dumpsList (x2 :: xs) ++ ']' :: r)) (']' :: s)
        (by rw [delimB]; decide) (by rw [delimB]; decide) h with ⟨_, h2⟩
    exact absurd (List.cons.inj h2).1 (by decide)
  | x1 :: x2 :: xs, y1 :: y2 :: ys, hx, hy, r, s, h => by
    simp only [dumpsList, List.append_assoc, List.cons_append] at h
    rcases (hx x1 (List.mem_cons_self _ _)).2 y1 (hy y1 (List.mem_cons_self _ _))
        (',' :: (dumpsList (x2 :: xs) ++ ']' :: r))
        (',' :: (dumpsList (y2 :: ys) ++ ']' :: s))
        (by rw [delimB]; decide) (by rw [delimB]; decide) h with ⟨h1, h2⟩
    have h3 := (List.cons.inj h2).2
    rcases dumpsList_cancel (x2 :: xs) (y2 :: ys)
        (fun x hmem => hx x (List.mem_cons_of_mem _ hmem))
        (fun y hmem => hy y (List.mem_cons_of_mem _ hmem)) r s h3 with ⟨h4, h5⟩
    exact ⟨by rw [h1, h4], h5⟩

theorem dumpsItems_cancel :
    ∀ (ps qs : List (List Char × PyJson)),
      (∀ k v, (k, v) ∈ ps → DumpWF v ∧ Cancels v) →
      (∀ k v, (k, v) ∈ qs → DumpWF v) → ∀ r s,
      dumpsItems ps ++ rbrace :: r = dumpsItems qs ++ rbrace :: s →
      ps = qs ∧ r = s
  | [], [], _, _, r, s, h => by
    simp only [dumpsItems, List.nil_append, List.cons.injEq] at h
    exact ⟨rfl, h.2⟩
  | [], (k, v) :: qs, _, hq, r, s, h => by
    cases qs with
    | nil =>
      simp only [dumpsItems, strDump, List.nil_append, List.append_assoc,
        List.cons_append, List.cons.injEq] at h
      exact absurd h.1.symm (by decide)
    | cons q2 qs2 =>
      simp only [dumpsItems, strDump, List.nil_append, List.append_assoc,
        List.cons_append, List.cons.injEq] at h
      exact absurd h.1.symm (by decide)
  | (k, v) :: ps, [], hp, _, r, s, h => by
    cases ps with
    | nil =>
      simp only [dumpsItems, strDump, List.nil_append, List.append_assoc,
        List.cons_append, List.cons.injEq] at h
      exact absurd h.1 (by decide)
    | cons p2 ps2 =>
      simp only [dumpsItems, strDump, List.nil_append, List.append_assoc,
        List.cons_append, List.cons.injEq] at h
      exact absurd h.1 (by decide)
  | [(k, v)], [(k2, v2)], hp, hq, r, s, h => by
    simp only [dumpsItems, List.append_assoc, List.cons_append] at h
    rcases strDump_cancel h with ⟨hk, h2⟩
    have h3 := (List.cons.inj h2).2
    rcases (hp k v (List.mem_cons_self _ _)).2 v2 (hq k2 v2 (List.mem_cons_self _ _))
        (rbrace :: r) (rbrace :: s) (by rw [delimB]; decide) (by rw [delimB]; decide) h3
      with ⟨hv, h4⟩
    exact ⟨by rw [hk, hv], (List.cons.inj h4).2⟩
  | [(k, v)], (k2, v2) :: q2 :: qs, hp, hq, r, s, h => by
    simp only [dumpsItems, List.append_assoc, List.cons_append] at h
    rcases strDump_cancel h with ⟨hk, h2⟩
    have h3 := (List.cons.inj h2).2
    rcases (hp k v (List.mem_cons_self _ _)).2 v2 (hq k2 v2 (List.mem_cons_self _ _))
        (rbrace :: r) (',' :: (dumpsItems (q2 :: qs) ++ rbrace :: s))
        (by rw [delimB]; decide) (by rw [delimB]; decide) h3 with ⟨_, h4⟩
    exact absurd (List.cons.inj h4).1 (by decide)
  | (k, v) :: p2 :: ps, [(k2, v2)], hp, hq, r, s, h => by
    simp only [dumpsItems, List.append_assoc, List.cons_append] at h
    rcases strDump_cancel h with ⟨hk, h2⟩
    have h3 := (List.cons.inj h2).2
    rcases (hp k v (List.mem_cons_self _ _)).2 v2 (hq k2 v2 (List.mem_cons_self _ _))
        (',' :: (dumpsItems (p2 :: ps) ++ rbrace :: r)) (rbrace :: s)
        (by rw [delimB]; decide) (by rw [delimB]; decide) h3 with ⟨_, h4⟩
    exact absurd (List.cons.inj h4).1 (by decide)
  | (k, v) :: p2 :: ps, (k2, v2) :: q2 :: qs, hp, hq, r, s, h => by
    simp only [dumpsItems, List.append_assoc, List.cons_append] at h
    rcases strDump_cancel h with ⟨hk, h2⟩
    have h3 := (List.cons.inj h2).2
    rcases (hp k v (List.mem_cons_self _ _)).2 v2 (hq k2 v2 (List.mem_cons_self _ _))
        (',' :: (dumpsItems (p2 :: ps) ++ rbrace :: r))
        (',' :: (dumpsItems (q2 :: qs) ++ rbrace :: s))
        (by rw [delimB]; decide) (by rw [delimB]; decide) h3 with ⟨hv, h4⟩
    have h5 := (List.cons.inj h4).2
    rcases dumpsItems_cancel (p2 :: ps) (q2 :: qs)
        (fun k2 v2 hmem => hp k2 v2 (List.mem_cons_of_mem _ hmem))
        (fun k2 v2 hmem => hq k2 v2 (List.mem_cons_of_mem _ hmem)) r s h5 with ⟨h6, h7⟩
    exact ⟨by rw [hk, hv, h6], h7⟩

theorem dumps_eq_ctor {v w : PyJson} (hv : DumpWF v) (hw : DumpWF w) {r s : List Char}
    (heq : dumps v ++ r = dumps w ++ s) : ctorClass v = ctorClass w := by
  rcases dumps_head v hv with ⟨c, t, hct, hcl, _⟩
  rcases dumps_head w hw with ⟨c2, t2, hct2, hcl2, _⟩
  rw [hct, hct2] at heq
  simp only [List.cons_append, List.cons.injEq] at heq
  rw [← hcl, ← hcl2, heq.1]

theorem dumps_cancel : ∀ v, DumpWF v → Cancels v := by
  intro v
  induction v using PyJson.inductionOn with
  | hnull =>
    intro hv w hw r s hr hs heq
    have hctor := dumps_eq_ctor hv hw heq
    cases w with
    | null => exact ⟨rfl, List.append_cancel_left heq⟩
    | bool b => cases b <;> simp [ctorClass] at hctor
    | int m => simp [ctorClass] at hctor
    | float f => simp [ctorClass] at hctor
    | str t => simp [ctorClass] at hctor
    | list ys => simp [ctorClass] at hctor
    | dict qs => simp [ctorClass] at hctor
  | hbool b =>
    intro hv w hw r s hr hs heq
    have hctor := dumps_eq_ctor hv hw heq
    cases w with
    | null => cases b <;> simp [ctorClass] at hctor
    | bool b2 =>
      cases b <;> cases b2 <;> simp [ctorClass] at hctor <;>
        exact ⟨rfl, List.append_cancel_left heq⟩
    | int m => cases b <;> simp [ctorClass] at hctor
    | float f => cases b <;> simp [ctorClass] at hctor
    | str t => cases b <;> simp [ctorClass] at hctor
    | list ys => cases b <;> simp [ctorClass] at hctor
    | dict qs => cases b <;> simp [ctorClass] at hctor
  | hint n =>
    intro hv w hw r s hr hs heq
    have hctor := dumps_eq_ctor hv hw heq
    cases w with
    | null => simp [ctorClass] at hctor
    | bool b => cases b <;> simp [ctorClass] at hctor
    | int m =>
      simp only [dumps] at heq
      rcases intDump_cancel hr hs heq with ⟨h1, h2⟩
      exact ⟨by rw [h1], h2⟩
    | float f => simp [ctorClass] at hctor
    | str t => simp [ctorClass] at hctor
    | list ys => simp [ctorClass] at hctor
    | dict qs => simp [ctorClass] at hctor
  | hfloat f => intro hv; cases hv
  | hstr t =>
    intro hv w hw r s hr hs heq
    have hctor := dumps_eq_ctor hv hw heq
    cases w with
    | null => simp [ctorClass] at hctor
    | bool b => cases b <;> simp [ctorClass] at hctor
    | int m => simp [ctorClass] at hctor
    | float f => simp [ctorClass] at hctor
    | str t2 =>
      simp only [dumps] at heq
      rcases strDump_cancel heq with ⟨h1, h2⟩
      exact ⟨by rw [h1], h2⟩
    | list ys => simp [ctorClass] at hctor
    | dict qs => simp [ctorClass] at hctor
  | hlist xs ih =>
    intro hv w hw r s hr hs heq
    have hctor := dumps_eq_ctor hv hw heq
    cases w with
    | null => simp [ctorClass] at hctor
    | bool b => cases b <;> simp [ctorClass] at hctor
    | int m => simp [ctorClass] at hctor
    | float f => simp [ctorClass] at hctor
    | str t => simp [ctorClass] at hctor
    | list ys =>
      cases hv with
      | list _ hxs =>
        cases hw with
        | list _ hys =>
          rw [dumps_list_eq, dumps_list_eq] at heq
          simp only [List.cons_append, List.append_assoc, List.nil_append,
            List.cons.injEq] at heq
          rcases dumpsList_cancel xs ys
              (fun x hx => ⟨hxs x hx, ih x hx (hxs x hx)⟩) hys r s heq.2 with ⟨h1, h2⟩
          exact ⟨by rw [h1], h2⟩
    | dict qs => simp [ctorClass] at hctor
  | hdict kvs ih =>
    intro hv w hw r s hr hs heq
    have hctor := dumps_eq_ctor hv hw heq
    cases w with
    | null => simp [ctorClass] at hctor
    | bool b => cases b <;> simp [ctorClass] at hctor
    | int m => simp [ctorClass] at hctor
    | float f => simp [ctorClass] at hctor
    | str t => simp [ctorClass] at hctor
    | list ys => simp [ctorClass] at hctor
    | dict qs =>
      cases hv with
      | dict _ hkvs hksort =>
        cases hw with
        | dict _ hqs hqsort =>
          rw [dumps_dict_sorted hksort, dumps_dict_sorted hqsort] at heq
          simp only [List.cons_append, List.append_assoc, List.nil_append,
            List.cons.injEq] at heq
          rcases dumpsItems_cancel kvs qs
              (fun k v hkv => ⟨hkvs k v hkv, ih k v hkv (hkvs k v hkv)⟩) hqs r s heq.2
            with ⟨h1, h2⟩
          exact ⟨by rw [h1], h2⟩

/-- `dumps` is injective on well-formed (float-free, sorted-dict) values. -/
theorem dumps_inj {v w : PyJson} (hv : DumpWF v) (hw : DumpWF w)
    (h : dumps v = dumps w) : v = w :=
  (dumps_cancel v hv w hw [] [] rfl rfl (by rw [List.append_nil, List.append_nil, h])).1

theorem secLe_total : ∀ a b : PyJson, rankOf a = rankOf b →
    (secLe a b || secLe b a) = true := by
  intro a b hr
  cases a <;> cases b <;> simp_all [rankOf, secLe, boolInt] <;>
    first
      | omega
      | (rename_i x y; cases x <;> cases y <;> simp [boolInt])
      | (exact charsLe_total _ _)
      | (simpa using charsLe_total _ _)

theorem secLe_trans : ∀ a b c : PyJson, rankOf a = rankOf b → rankOf b = rankOf c →
    secLe a b = true → secLe b c = true → secLe a c = true := by
  intro a b c hab hbc h1 h2
  cases a <;> cases b <;> cases c <;> simp_all [rankOf, secLe, boolInt] <;>
    first
      | omega
      | (exact charsLe_trans h1 h2)

theorem secLe_antisymm : ∀ a b : PyJson, DumpWF a → DumpWF b →
    rankOf a = rankOf b → secLe a b = true → secLe b a = true → a = b := by
  intro a b hwa hwb hr h1 h2
  cases a <;> cases b <;> simp_all [rankOf, secLe, boolInt] <;>
    first
      | omega
      | (exact charsLe_antisymm h1 h2)
      | (simpa using dumps_inj hwa hwb (charsLe_antisymm h1 h2))
      | (rename_i x y; cases x <;> cases y <;> simp_all [boolInt])

theorem elemLe_total : ∀ a b : PyJson, (elemLe a b || elemLe b a) = true := by
  intro a b
  unfold elemLe
  rcases Nat.lt_trichotomy (rankOf a) (rankOf b) with h | h | h
  · rw [if_pos h]
    simp
  · rw [if_neg (by omega), if_neg (by omega), if_neg (by omega), if_neg (by omega)]
    exact secLe_total a b h
  · rw [if_neg (by omega), if_pos h, if_pos h]
    simp

theorem elemLe_trans : ∀ a b c : PyJson,
    elemLe a b = true → elemLe b c = true → elemLe a c = true := by
  intro a b c h1 h2
  unfold elemLe at h1 h2 ⊢
  rcases Nat.lt_trichotomy (rankOf a) (rankOf b) with hab | hab | hab <;>
    rcases Nat.lt_trichotomy (rankOf b) (rankOf c) with hbc | hbc | hbc
  · rw [if_pos (by omega)]
  · rw [if_pos (by omega)]
  · rw [if_neg (by omega), if_pos hbc] at h2
    exact absurd h2 (by simp)
  · rw [if_pos (by omega)]
  · rw [if_neg (by omega), if_neg (by omega)] at h1
    rw [if_neg (by omega), if_neg (by omega)] at h2
    rw [if_neg (by omega), if_neg (by omega)]
    exact secLe_trans a b c (by omega) (by omega) h1 h2
  · rw [if_neg (by omega), if_pos hbc] at h2
    exact absurd h2 (by simp)
  · rw [if_neg (by omega), if_pos hab] at h1
    exact absurd h1 (by simp)
  · rw [if_neg (by omega), if_pos hab] at h1
    exact absurd h1 (by simp)
  · rw [if_neg (by omega), if_pos hab] at h1
    exact absurd h1 (by simp)

theorem elemLe_antisymm : ∀ a b : PyJson, DumpWF a → DumpWF b →
    elemLe a b = true → elemLe b a = true → a = b := by
  intro a b hwa hwb h1 h2
  unfold elemLe at h1 h2
  rcases Nat.lt_trichotomy (rankOf a) (rankOf b) with hr | hr | hr
  · rw [if_neg (by omega), if_pos hr] at h2
    exact absurd h2 (by simp)
  · rw [if_neg (by omega), if_neg (by omega)] at h1
    rw [if_neg (by omega), if_neg (by omega)] at h2
    exact secLe_antisymm a b hwa hwb hr h1 h2
  · rw [if_neg (by omega), if_pos hr] at h1
    exact absurd h1 (by simp)

/-- Two sorted lists that are permutations of each other and whose order is
antisymmetric on their elements are equal. -/
theorem sorted_perm_eq {α : Type} (le : α → α → Bool) :
    ∀ (l₁ l₂ : List α), l₁.Perm l₂ →
      l₁.Pairwise (fun a b => le a b = true) →
      l₂.Pairwise (fun a b => le a b = true) →
      (∀ a ∈ l₁, ∀ b ∈ l₁, le a b = true → le b a = true → a = b) →
      l₁ = l₂ := by
  intro l₁
  induction l₁ with
  | nil => intro l₂ hp _ _ _; exact hp.nil_eq
  | cons a t ih =>
    intro l₂ hp hs₁ hs₂ hanti
    cases l₂ with
    | nil => exact absurd hp.symm.nil_eq (by simp)
    | cons b t₂ =>
      have hab : a = b := by
        by_cases h : a = b
        · exact h
        · have ha2 : a ∈ b :: t₂ := hp.mem_iff.mp (List.mem_cons_self a t)
          have hb1 : b ∈ a :: t := hp.mem_iff.mpr (List.mem_cons_self b t₂)
          have ha2' : a ∈ t₂ := by
            rcases List.mem_cons.mp ha2 with h1 | h1
            · exact absurd h1 h
            · exact h1
          have hb1' : b ∈ t := by
            rcases List.mem_cons.mp hb1 with h1 | h1
            · exact absurd h1.symm h
            · exact h1
          have hle1 : le a b = true := (List.pairwise_cons.mp hs₁).1 b hb1'
          have hle2 : le b a = true := (List.pairwise_cons.mp hs₂).1 a ha2'
          exact hanti a (List.mem_cons_self a t) b (List.mem_cons_of_mem a hb1')
            hle1 hle2
      subst hab
      have hp' : t.Perm t₂ := hp.cons_inv
      rw [ih t₂ hp' (List.pairwise_cons.mp hs₁).2 (List.pairwise_cons.mp hs₂).2
        (fun x hx y hy => hanti x (List.mem_cons_of_mem a hx)
          y (List.mem_cons_of_mem a hy))]

/-- Stable sorting two permuted lists with a total, transitive order that is
antisymmetric on their elements yields the same list. -/
theorem mergeSort_perm_congr {α : Type} (le : α → α → Bool)
    (htrans : ∀ a b c : α, le a b → le b c → le a c)
    (htotal : ∀ a b : α, le a b || le b a)
    {l₁ l₂ : List α} (hp : l₁.Perm l₂)
    (hanti : ∀ a ∈ l₁, ∀ b ∈ l₁, le a b = true → le b a = true → a = b) :
    l₁.mergeSort le = l₂.mergeSort le := by
  refine sorted_perm_eq le _ _ ?_ ?_ ?_ ?_
  · exact ((List.mergeSort_perm l₁ le).trans hp).trans (List.mergeSort_perm l₂ le).symm
  · exact List.sorted_mergeSort htrans htotal l₁
  · exact List.sorted_mergeSort htrans htotal l₂
  · intro a ha b hb
    exact hanti a ((List.mergeSort_perm l₁ le).mem_iff.mp ha)
      b ((List.mergeSort_perm l₁ le).mem_iff.mp hb)

theorem canonElems_cons (x : PyJson) (xs : List PyJson) :
    canonElems (x :: xs) =
      match canonicalize_json_obj x with
      | .error e => .error e
      | .ok c =>
        match canonElems xs with
        | .error e => .error e
        | .ok cs => .ok (c :: cs) := by
  cases hx : canonicalize_json_obj x <;> cases hxs : canonElems xs <;>
    simp [canonElems, hx, hxs, Bind.bind, Except.bind, Pure.pure, Except.pure]

theorem canonItems_cons (k : List Char) (v : PyJson)
    (rest : List (List Char × PyJson)) :
    canonItems ((k, v) :: rest) =
      match canonicalize_json_obj v with
      | .error e => .error e
      | .ok c =>
        match canonItems rest with
        | .error e => .error e
        | .ok cs => .ok ((k, c) :: cs) := by
  cases hv : canonicalize_json_obj v <;> cases hrest : canonItems rest <;>
    simp [canonItems, hv, hrest, Bind.bind, Except.bind, Pure.pure, Except.pure]

theorem canonicalize_list_eq (xs : List PyJson) :
    canonicalize_json_obj (.list xs) =
      match canonElems xs with
      | .error e => .error e
      | .ok es => .ok (.list (es.mergeSort elemLe)) := by
  cases hxs : canonElems xs <;> simp [canonicalize_json_obj, hxs, Bind.bind, Except.bind, Pure.pure, Except.pure]

theorem canonicalize_dict_eq (kvs : List (List Char × PyJson)) :
    canonicalize_json_obj (.dict kvs) =
      match canonItems kvs with
      | .error e => .error e
      | .ok items => .ok (.dict (dictFromItems (items.mergeSort pairKeyLe))) := by
  cases hkvs : canonItems kvs <;> simp [canonicalize_json_obj, hkvs, Bind.bind, Except.bind, Pure.pure, Except.pure]

/-- The only error `canonicalize_json_obj` can produce in this model is
`FLOAT_FORBIDDEN` (dict keys are strings by construction and `PyJson` covers
every runtime type of a parsed value). -/
theorem canonicalize_json_obj_error :
    ∀ v e, canonicalize_json_obj v = .error e → e = "FLOAT_FORBIDDEN" := by
  have main : ∀ v, (∀ e, canonicalize_json_obj v = .error e → e = "FLOAT_FORBIDDEN") := by
    intro v
    induction v using PyJson.inductionOn with
    | hnull => intro e h; simp [canonicalize_json_obj] at h
    | hbool b => intro e h; simp [canonicalize_json_obj] at h
    | hint n => intro e h; simp [canonicalize_json_obj] at h
    | hfloat f =>
      intro e h
      simp only [canonicalize_json_obj] at h
      exact (Except.error.inj h).symm
    | hstr s => intro e h; simp [canonicalize_json_obj] at h
    | hlist xs ih =>
      intro e h
      rw [canonicalize_list_eq] at h
      have aux : ∀ (ys : List PyJson),
          (∀ x ∈ ys, ∀ e', canonicalize_json_obj x = .error e' → e' = "FLOAT_FORBIDDEN") →
          ∀ e', canonElems ys = .error e' → e' = "FLOAT_FORBIDDEN" := by
        intro ys
        induction ys with
        | nil => intro _ e' h'; simp [canonElems] at h'
        | cons y ys ih2 =>
          intro hall e' h'
          rw [canonElems_cons] at h'
          cases hy : canonicalize_json_obj y with
          | error e2 =>
            rw [hy] at h'
            exact hall y (List.mem_cons_self _ _) e' (hy.trans (Except.error.inj h' ▸ rfl))
          | ok c =>
            rw [hy] at h'
            cases hys : canonElems ys with
            | error e2 =>
              rw [hys] at h'
              exact ih2 (fun x hx => hall x (List.mem_cons_of_mem _ hx)) e'
                (hys.trans (Except.error.inj h' ▸ rfl))
            | ok cs => rw [hys] at h'; exact absurd h' (by simp)
      cases hxs : canonElems xs with
      | error e2 =>
        rw [hxs] at h
        have := aux xs ih e2 hxs
        rw [← Except.error.inj h]
        exact this
      | ok es => rw [hxs] at h; exact absurd h (by simp)
    | hdict kvs ih =>
      intro e h
      rw [canonicalize_dict_eq] at h
      have aux : ∀ (qs : List (List Char × PyJson)),
          (∀ k v, (k, v) ∈ qs → ∀ e', canonicalize_json_obj v = .error e' →
            e' = "FLOAT_FORBIDDEN") →
          ∀ e', canonItems qs = .error e' → e' = "FLOAT_FORBIDDEN" := by
        intro qs
        induction qs with
        | nil => intro _ e' h'; simp [canonItems] at h'
        | cons p qs ih2 =>
          rcases p with ⟨k, v⟩
          intro hall e' h'
          rw [canonItems_cons] at h'
          cases hv : canonicalize_json_obj v with
          | error e2 =>
            rw [hv] at h'
            exact hall k v (List.mem_cons_self _ _) e'
              (hv.trans (Except.error.inj h' ▸ rfl))
          | ok c =>
            rw [hv] at h'
            cases hqs : canonItems qs with
            | error e2 =>
              rw [hqs] at h'
              exact ih2 (fun k2 v2 hkv => hall k2 v2 (List.mem_cons_of_mem _ hkv)) e'
                (hqs.trans (Except.error.inj h' ▸ rfl))
            | ok cs => rw [hqs] at h'; exact absurd h' (by simp)
      cases hkvs : canonItems kvs with
      | error e2 =>
        rw [hkvs] at h
        have := aux kvs ih e2 hkvs
        rw [← Except.error.inj h]
        exact this
      | ok items => rw [hkvs] at h; exact absurd h (by simp)
  exact main

theorem canonElems_error :
    ∀ xs e, canonElems xs = .error e → e = "FLOAT_FORBIDDEN" := by
  intro xs
  induction xs with
  | nil => intro e h; simp [canonElems] at h
  | cons x xs ih =>
    intro e h
    rw [canonElems_cons] at h
    cases hx : canonicalize_json_obj x with
    | error e2 =>
      rw [hx] at h
      rw [← Except.error.inj h]
      exact canonicalize_json_obj_error x e2 hx
    | ok c =>
      rw [hx] at h
      cases hxs : canonElems xs with
      | error e2 =>
        rw [hxs] at h
        rw [← Except.error.inj h]
        exact ih e2 hxs
      | ok cs => rw [hxs] at h; exact absurd h (by simp)

theorem canonElems_mem :
    ∀ (xs : List PyJson) (es : List PyJson), canonElems xs = .ok es →
      ∀ e ∈ es, ∃ x ∈ xs, canonicalize_json_obj x = .ok e := by
  intro xs
  induction xs with
  | nil =>
    intro es h e he
    simp [canonElems] at h
    subst h
    simp at he
  | cons x xs ih =>
    intro es h e he
    rw [canonElems_cons] at h
    cases hx : canonicalize_json_obj x with
    | error e2 => rw [hx] at h; exact absurd h (by simp)
    | ok c =>
      rw [hx] at h
      cases hxs : canonElems xs with
      | error e2 => rw [hxs] at h; exact absurd h (by simp)
      | ok cs =>
        rw [hxs] at h
        have hes : es = c :: cs := (Except.ok.inj h).symm
        subst hes
        rcases List.mem_cons.mp he with h1 | h1
        · subst h1; exact ⟨x, List.mem_cons_self _ _, hx⟩
        · rcases ih cs hxs e h1 with ⟨x2, hx2, hcx2⟩
          exact ⟨x2, List.mem_cons_of_mem _ hx2, hcx2⟩

theorem canonItems_mem :
    ∀ (qs : List (List Char × PyJson)) (items : List (List Char × PyJson)),
      canonItems qs = .ok items →
      ∀ k c, (k, c) ∈ items → ∃ v, (k, v) ∈ qs ∧ canonicalize_json_obj v = .ok c := by
  intro qs
  induction qs with
  | nil =>
    intro items h k c hkc
    simp [canonItems] at h
    subst h
    simp at hkc
  | cons p qs ih =>
    rcases p with ⟨k0, v0⟩
    intro items h k c hkc
    rw [canonItems_cons] at h
    cases hv : canonicalize_json_obj v0 with
    | error e2 => rw [hv] at h; exact absurd h (by simp)
    | ok c0 =>
      rw [hv] at h
      cases hqs : canonItems qs with
      | error e2 => rw [hqs] at h; exact absurd h (by simp)
      | ok cs =>
        rw [hqs] at h
        have hes : items = (k0, c0) :: cs := (Except.ok.inj h).symm
        subst hes
        rcases List.mem_cons.mp hkc with h1 | h1
        · rcases Prod.mk.inj h1 with ⟨hk, hc⟩
          subst hk
          subst hc
          exact ⟨v0, List.mem_cons_self _ _, hv⟩
        · rcases ih cs hqs k c h1 with ⟨v2, hv2, hcv2⟩
          exact ⟨v2, List.mem_cons_of_mem _ hv2, hcv2⟩

theorem canonElems_fixed :
    ∀ (xs : List PyJson), (∀ x ∈ xs, canonicalize_json_obj x = .ok x) →
      canonElems xs = .ok xs := by
  intro xs
  induction xs with
  | nil => intro _; simp [canonElems]
  | cons x xs ih =>
    intro hall
    rw [canonElems_cons, hall x (List.mem_cons_self _ _),
      ih (fun y hy => hall y (List.mem_cons_of_mem _ hy))]

theorem canonItems_fixed :
    ∀ (qs : List (List Char × PyJson)),
      (∀ k v, (k, v) ∈ qs → canonicalize_json_obj v = .ok v) →
      canonItems qs = .ok qs := by
  intro qs
  induction qs with
  | nil => intro _; simp [canonItems]
  | cons p qs ih =>
    rcases p with ⟨k0, v0⟩
    intro hall
    rw [canonItems_cons, hall k0 v0 (List.mem_cons_self _ _),
      ih (fun k v hkv => hall k v (List.mem_cons_of_mem _ hkv))]

theorem foldl_pick_mem :
    ∀ (l : List (List Char × PyJson)) (v0 : PyJson),
      l.foldl (fun _ q => q.2) v0 = v0 ∨
        ∃ p ∈ l, l.foldl (fun _ q => q.2) v0 = p.2 := by
  intro l
  induction l with
  | nil => intro v0; left; rfl
  | cons q l ih =>
    intro v0
    rw [List.foldl_cons]
    rcases ih q.2 with h | ⟨p, hp, hfp⟩
    · right; exact ⟨q, List.mem_cons_self _ _, h⟩
    · right; exact ⟨p, List.mem_cons_of_mem _ hp, hfp⟩

theorem dictFromItems_mem :
    ∀ (l : List (List Char × PyJson)) (k : List Char) (v : PyJson),
      (k, v) ∈ dictFromItems l →
      (∃ v2, (k, v2) ∈ l) ∧ (∃ k2, (k2, v) ∈ l)
  | [] => by intro k v h; simp [dictFromItems] at h
  | (k0, v0) :: rest => by
    intro k v hmem
    rw [dictFromItems] at hmem
    rcases List.mem_cons.mp hmem with h1 | h1
    · rcases Prod.mk.inj h1 with ⟨hk, hv⟩
      subst hk
      constructor
      · exact ⟨v0, List.mem_cons_self _ _⟩
      · rcases foldl_pick_mem (rest.filter (fun p => p.1 = k)) v0 with h2 | ⟨p, hp, hfp⟩
        · exact ⟨k, by rw [hv, h2]; exact List.mem_cons_self _ _⟩
        · refine ⟨p.1, ?_⟩
          rw [hv, hfp]
          have := (List.mem_filter.mp hp).1
          exact List.mem_cons_of_mem _ (by simpa using this)
    · rcases dictFromItems_mem (rest.filter (fun p => ¬ p.1 = k0)) k v h1 with ⟨⟨v2, hv2⟩, ⟨k2, hk2⟩⟩
      constructor
      · exact ⟨v2, List.mem_cons_of_mem _ (List.mem_filter.mp hv2).1⟩
      · exact ⟨k2, List.mem_cons_of_mem _ (List.mem_filter.mp hk2).1⟩
termination_by l => l.length
decreasing_by
  have := List.length_filter_le (fun p => decide (¬ p.1 = k0)) rest
  simp only [List.length_cons]
  omega

theorem dictFromItems_pairwise_lt :
    ∀ (l : List (List Char × PyJson)),
      l.Pairwise (fun a b => charsLe a.1 b.1 = true) →
      (dictFromItems l).Pairwise (fun a b => charsLt a.1 b.1 = true)
  | [] => by intro _; simp [dictFromItems]
  | (k0, v0) :: rest => by
    intro hp
    rw [dictFromItems]
    rcases List.pairwise_cons.mp hp with ⟨hhead, htail⟩
    refine List.pairwise_cons.mpr ⟨?_, ?_⟩
    · intro p hp2
      rcases p with ⟨k2, v2⟩
      rcases (dictFromItems_mem _ k2 v2 hp2).1 with ⟨v3, hv3⟩
      have hmem := List.mem_filter.mp hv3
      have hne : ¬ (k2 = k0) := by simpa using hmem.2
      have hle : charsLe k0 k2 = true := hhead (k2, v3) hmem.1
      exact charsLt_of_charsLe_ne hle (fun hh => hne hh.symm)
    · exact dictFromItems_pairwise_lt (rest.filter (fun p => ¬ p.1 = k0))
        (List.Pairwise.sublist (List.filter_sublist rest) htail)
termination_by l => l.length
decreasing_by
  have := List.length_filter_le (fun p => decide (¬ p.1 = k0)) rest
  simp only [List.length_cons]
  omega

theorem dictFromItems_id :
    ∀ (l : List (List Char × PyJson)),
      l.Pairwise (fun a b => a.1 ≠ b.1) → dictFromItems l = l
  | [] => by intro _; rw [dictFromItems]
  | (k0, v0) :: rest => by
    intro hp
    rcases List.pairwise_cons.mp hp with ⟨hhead, htail⟩
    rw [dictFromItems]
    have h1 : rest.filter (fun p => p.1 = k0) = [] := by
      rw [List.filter_eq_nil_iff]
      intro p hmem
      simpa using fun hh => hhead p hmem (by rw [hh])
    have h2 : rest.filter (fun p => ¬ p.1 = k0) = rest := by
      rw [List.filter_eq_self]
      intro p hmem
      simpa using fun hh => hhead p hmem (by rw [hh])
    rw [h1, h2, dictFromItems_id rest htail]
    rfl
termination_by l => l.length
decreasing_by
  simp only [List.length_cons]
  omega

/-- The canonical-form predicate: float-free, lists sorted by the type-rank
order, dicts sorted with strictly increasing keys, recursively. -/
inductive IsCanon : PyJson → Prop where
  | null : IsCanon .null
  | bool (b : Bool) : IsCanon (.bool b)
  | int (n : Int) : IsCanon (.int n)
  | str (s : List Char) : IsCanon (.str s)
  | list (xs : List PyJson) : (∀ x ∈ xs, IsCanon x) →
      xs.Pairwise (fun a b => elemLe a b = true) → IsCanon (.list xs)
  | dict (kvs : List (List Char × PyJson)) :
      (∀ k v, (k, v) ∈ kvs → IsCanon v) →
      kvs.Pairwise (fun a b => charsLt a.1 b.1 = true) → IsCanon (.dict kvs)

theorem isCanon_dumpWF : ∀ v, IsCanon v → DumpWF v := by
  intro v
  induction v using PyJson.inductionOn with
  | hnull => intro _; exact DumpWF.null
  | hbool b => intro _; exact DumpWF.bool b
  | hint n => intro _; exact DumpWF.int n
  | hfloat f => intro h; cases h
  | hstr s => intro _; exact DumpWF.str s
  | hlist xs ih =>
    intro h
    cases h with
    | list _ hall hsort => exact DumpWF.list xs (fun x hx => ih x hx (hall x hx))
  | hdict kvs ih =>
    intro h
    cases h with
    | dict _ hall hsort =>
      exact DumpWF.dict kvs (fun k v hkv => ih k v hkv (hall k v hkv)) hsort

theorem pairKeyLe_trans : ∀ a b c : List Char × PyJson,
    pairKeyLe a b → pairKeyLe b c → pairKeyLe a c := by
  intro a b c h1 h2
  exact charsLe_trans h1 h2

theorem pairKeyLe_total : ∀ a b : List Char × PyJson,
    pairKeyLe a b || pairKeyLe b a := by
  intro a b
  exact charsLe_total a.1 b.1

theorem canonicalize_ok_isCanon :
    ∀ v c, canonicalize_json_obj v = .ok c → IsCanon c := by
  intro v
  induction v using PyJson.inductionOn with
  | hnull =>
    intro c h
    simp only [canonicalize_json_obj, Except.ok.injEq] at h
    subst h
    exact IsCanon.null
  | hbool b =>
    intro c h
    simp only [canonicalize_json_obj, Except.ok.injEq] at h
    subst h
    exact IsCanon.bool b
  | hint n =>
    intro c h
    simp only [canonicalize_json_obj, Except.ok.injEq] at h
    subst h
    exact IsCanon.int n
  | hfloat f =>
    intro c h
    simp [canonicalize_json_obj] at h
  | hstr s =>
    intro c h
    simp only [canonicalize_json_obj, Except.ok.injEq] at h
    subst h
    exact IsCanon.str s
  | hlist xs ih =>
    intro c h
    rw [canonicalize_list_eq] at h
    cases hxs : canonElems xs with
    | error e => rw [hxs] at h; exact absurd h (by simp)
    | ok es =>
      rw [hxs] at h
      rw [← Except.ok.inj h]
      refine IsCanon.list _ ?_ ?_
      · intro x hx
        have hx2 : x ∈ es := (List.mergeSort_perm es elemLe).mem_iff.mp hx
        rcases canonElems_mem xs es hxs x hx2 with ⟨x0, hx0, hcx0⟩
        exact ih x0 hx0 x hcx0
      · exact List.sorted_mergeSort elemLe_trans elemLe_total es
  | hdict kvs ih =>
    intro c h
    rw [canonicalize_dict_eq] at h
    cases hkvs : canonItems kvs with
    | error e => rw [hkvs] at h; exact absurd h (by simp)
    | ok items =>
      rw [hkvs] at h
      rw [← Except.ok.inj h]
      refine IsCanon.dict _ ?_ ?_
      · intro k v hkv
        rcases (dictFromItems_mem _ k v hkv).2 with ⟨k2, hk2⟩
        have hk3 : (k2, v) ∈ items :=
          (List.mergeSort_perm items pairKeyLe).mem_iff.mp hk2
        rcases canonItems_mem kvs items hkvs k2 v hk3 with ⟨v0, hv0, hcv0⟩
        exact ih k2 v0 hv0 v hcv0
      · exact dictFromItems_pairwise_lt _
          (List.sorted_mergeSort pairKeyLe_trans pairKeyLe_total items)

theorem canonicalize_of_isCanon :
    ∀ c, IsCanon c → canonicalize_json_obj c = .ok c := by
  intro c
  induction c using PyJson.inductionOn with
  | hnull => intro _; simp [canonicalize_json_obj]
  | hbool b => intro _; simp [canonicalize_json_obj]
  | hint n => intro _; simp [canonicalize_json_obj]
  | hfloat f => intro h; cases h
  | hstr s => intro _; simp [canonicalize_json_obj]
  | hlist xs ih =>
    intro h
    cases h with
    | list _ hall hsort =>
      rw [canonicalize_list_eq, canonElems_fixed xs (fun x hx => ih x hx (hall x hx))]
      show Except.ok (PyJson.list (xs.mergeSort elemLe)) = Except.ok (PyJson.list xs)
      rw [List.mergeSort_of_sorted hsort]
  | hdict kvs ih =>
    intro h
    cases h with
    | dict _ hall hsort =>
      rw [canonicalize_dict_eq, canonItems_fixed kvs (fun k v hkv => ih k v hkv (hall k v hkv))]
      show Except.ok (PyJson.dict (dictFromItems (kvs.mergeSort pairKeyLe))) =
        Except.ok (PyJson.dict kvs)
      rw [List.mergeSort_of_sorted (hsort.imp (fun hab => pairKeyLe_of_charsLt _ _ hab)),
        dictFromItems_id kvs (hsort.imp (fun hab heq => by
          rw [heq] at hab
          exact absurd hab (by simpa using charsLt_irrefl _)))]

mutual

/-- `PermRel v w`: `w` is obtained from `v` by permuting the elements of any
of its arrays, at any depth (dict entry order and all scalars unchanged). -/
def PermRel : PyJson → PyJson → Prop
  | .null => fun w => w = .null
  | .bool x => fun w => w = .bool x
  | .int m => fun w => w = .int m
  | .float f => fun w => w = .float f
  | .str s => fun w => w = .str s
  | .list xs => fun w => ∃ ys zs, PermRelList xs ys ∧ ys.Perm zs ∧ w = .list zs
  | .dict kvs => fun w => ∃ qs, PermRelItems kvs qs ∧ w = .dict qs
termination_by v => sizeOf v
decreasing_by
  all_goals simp_wf
  all_goals omega

def PermRelList : List PyJson → List PyJson → Prop
  | [], [] => True
  | [], _ :: _ => False
  | _ :: _, [] => False
  | x :: xs, y :: ys => PermRel x y ∧ PermRelList xs ys
termination_by xs _ => sizeOf xs
decreasing_by
  all_goals simp_wf
  all_goals omega

def PermRelItems : List (List Char × PyJson) → List (List Char × PyJson) → Prop
  | [], [] => True
  | [], _ :: _ => False
  | _ :: _, [] => False
  | (k, v) :: ps, (k2, v2) :: qs => k = k2 ∧ PermRel v v2 ∧ PermRelItems ps qs
termination_by ps _ => sizeOf ps
decreasing_by
  all_goals simp_wf
  all_goals omega

end

theorem canonElems_congr :
    ∀ (xs ys : List PyJson), PermRelList xs ys →
      (∀ x ∈ xs, ∀ y, PermRel x y →
        canonicalize_json_obj x = canonicalize_json_obj y) →
      canonElems xs = canonElems ys
  | [], [], _, _ => rfl
  | [], _ :: _, h, _ => absurd h (by rw [PermRelList]; exact fun hh => hh)
  | _ :: _, [], h, _ => absurd h (by rw [PermRelList]; exact fun hh => hh)
  | x :: xs, y :: ys, h, hall => by
    rw [PermRelList] at h
    rw [canonElems_cons, canonElems_cons,
      hall x (List.mem_cons_self _ _) y h.1,
      canonElems_congr xs ys h.2
        (fun x2 hx2 y2 hy2 => hall x2 (List.mem_cons_of_mem _ hx2) y2 hy2)]

theorem canonItems_congr :
    ∀ (ps qs : List (List Char × PyJson)), PermRelItems ps qs →
      (∀ k v, (k, v) ∈ ps → ∀ w, PermRel v w →
        canonicalize_json_obj v = canonicalize_json_obj w) →
      canonItems ps = canonItems qs
  | [], [], _, _ => rfl
  | [], _ :: _, h, _ => absurd h (by rw [PermRelItems]; exact fun hh => hh)
  | _ :: _, [], h, _ => absurd h (by rw [PermRelItems]; exact fun hh => hh)
  | (k, v) :: ps, (k2, v2) :: qs, h, hall => by
    rw [PermRelItems] at h
    rcases h with ⟨hk, hv, hrest⟩
    subst hk
    rw [canonItems_cons, canonItems_cons,
      hall k v (List.mem_cons_self _ _) v2 hv,
      canonItems_congr ps qs hrest
        (fun k3 v3 hkv3 w3 hw3 => hall k3 v3 (List.mem_cons_of_mem _ hkv3) w3 hw3)]

theorem canonElems_perm {ys zs : List PyJson} (hp : ys.Perm zs) :
    (canonElems ys = .error "FLOAT_FORBIDDEN" ∧
     canonElems zs = .error "FLOAT_FORBIDDEN") ∨
    (∃ es fs, canonElems ys = .ok es ∧ canonElems zs = .ok fs ∧ es.Perm fs) := by
  induction hp with
  | nil => right; exact ⟨[], [], by simp [canonElems], by simp [canonElems], List.Perm.nil⟩
  | cons x hp2 ih =>
    rename_i l₁ l₂
    cases hx : canonicalize_json_obj x with
    | error e =>
      have he := canonicalize_json_obj_error x e hx
      subst he
      left
      constructor <;> simp [canonElems_cons, hx]
    | ok c =>
      rcases ih with ⟨h1, h2⟩ | ⟨es, fs, h1, h2, hpf⟩
      · left
        constructor <;> simp [canonElems_cons, hx, h1, h2]
      · right
        exact ⟨c :: es, c :: fs, by simp [canonElems_cons, hx, h1],
          by simp [canonElems_cons, hx, h2], hpf.cons c⟩
  | swap x y l =>
    cases hx : canonicalize_json_obj x with
    | error e =>
      have he := canonicalize_json_obj_error x e hx
      subst he
      cases hy : canonicalize_json_obj y with
      | error e2 =>
        have he2 := canonicalize_json_obj_error y e2 hy
        subst he2
        left
        constructor <;> simp [canonElems_cons, hx, hy]
      | ok cy =>
        left
        constructor <;> simp [canonElems_cons, hx, hy]
    | ok cx =>
      cases hy : canonicalize_json_obj y with
      | error e2 =>
        have he2 := canonicalize_json_obj_error y e2 hy
        subst he2
        left
        constructor <;> simp [canonElems_cons, hx, hy]
      | ok cy =>
        cases hl : canonElems l with
        | error e3 =>
          have he3 := canonElems_error l e3 hl
          subst he3
          left
          constructor <;> simp [canonElems_cons, hx, hy, hl]
        | ok cls =>
          right
          exact ⟨cy :: cx :: cls, cx :: cy :: cls,
            by simp [canonElems_cons, hx, hy, hl],
            by simp [canonElems_cons, hx, hy, hl],
            List.Perm.swap cx cy cls⟩
  | trans hp1 hp2 ih1 ih2 =>
    rcases ih1 with ⟨h1, h2⟩ | ⟨es, fs, h1, h2, hpf⟩ <;>
      rcases ih2 with ⟨h3, h4⟩ | ⟨gs, hs, h3, h4, hpg⟩
    · left; exact ⟨h1, h4⟩
    · rw [h2] at h3; exact absurd h3 (by simp)
    · rw [h2] at h3; exact absurd h3 (by simp)
    · right
      rw [h2] at h3
      have hfg : fs = gs := Except.ok.inj h3
      subst hfg
      exact ⟨es, hs, h1, h4, hpf.trans hpg⟩

/-- Canonicalization is invariant under permuting any input array, at any
depth: related inputs produce identical results (including identical
errors). -/
theorem canonicalize_permRel :
    ∀ v w, PermRel v w → canonicalize_json_obj v = canonicalize_json_obj w := by
  intro v
  induction v using PyJson.inductionOn with
  | hnull => intro w h; rw [PermRel] at h; rw [h]
  | hbool b => intro w h; rw [PermRel] at h; rw [h]
  | hint n => intro w h; rw [PermRel] at h; rw [h]
  | hfloat f => intro w h; rw [PermRel] at h; rw [h]
  | hstr s => intro w h; rw [PermRel] at h; rw [h]
  | hlist xs ih =>
    intro w h
    rw [PermRel] at h
    rcases h with ⟨ys, zs, h1, h2, rfl⟩
    have hxy : canonElems xs = canonElems ys :=
      canonElems_congr xs ys h1 (fun x hx y hy => ih x hx y hy)
    rcases canonElems_perm h2 with ⟨e1, e2⟩ | ⟨es, fs, e1, e2, hperm⟩
    · rw [canonicalize_list_eq, canonicalize_list_eq, hxy, e1, e2]
    · rw [canonicalize_list_eq, canonicalize_list_eq, hxy, e1, e2]
      show Except.ok (PyJson.list (es.mergeSort elemLe)) =
        Except.ok (PyJson.list (fs.mergeSort elemLe))
      have hanti : ∀ a ∈ es, ∀ b ∈ es, elemLe a b = true → elemLe b a = true → a = b := by
        intro a ha b hb hab hba
        rcases canonElems_mem ys es e1 a ha with ⟨ya, hya, hca⟩
        rcases canonElems_mem ys es e1 b hb with ⟨yb, hyb, hcb⟩
        exact elemLe_antisymm a b
          (isCanon_dumpWF a (canonicalize_ok_isCanon ya a hca))
          (isCanon_dumpWF b (canonicalize_ok_isCanon yb b hcb)) hab hba
      rw [mergeSort_perm_congr elemLe elemLe_trans elemLe_total hperm hanti]
  | hdict kvs ih =>
    intro w h
    rw [PermRel] at h
    rcases h with ⟨qs, h1, rfl⟩
    rw [canonicalize_dict_eq, canonicalize_dict_eq,
      canonItems_congr kvs qs h1 (fun k v hkv w2 hw2 => ih k v hkv w2 hw2)]

/-!
The JSON parser (`json.loads(raw, parse_float=forbid_float)`).  Python's
scanner tries, in order: string, object, array, null, true, false, the
NUMBER_RE regex, NaN, Infinity, -Infinity.  A numeric token with a
fractional part or exponent is passed to `parse_float`, which is
`forbid_float` and raises `FLOAT_FORBIDDEN` — so parsing aborts the moment
such a token is scanned.  The constants NaN / Infinity / -Infinity go
through `parse_constant` (not `parse_float`) and produce float values.
One modelling restriction: strings are sequences of Unicode scalar values,
so an unpaired `\\uXXXX` surrogate escape is rejected with `LONE_SURROGATE`
(Python would produce a string containing a lone surrogate, which `Char`
cannot represent). -/

def skipWs (cs : List Char) : List Char :=
  cs.dropWhile (fun c => c == ' ' || c == '\t' || c == '\n' || c == '\r')

/-- Matches a literal; returns the rest of the input on success. -/
def litMatch : List Char → List Char → Option (List Char)
  | [], cs => some cs
  | _ :: _, [] => none
  | p :: ps, c :: cs => if c = p then litMatch ps cs else none

/-- The groups of NUMBER_RE: `(-?(?:0|[1-9]\d*))(\.\d+)?([eE][-+]?\d+)?`. -/
structure NumParts where
  neg : Bool
  intPart : List Char
  frac : Option (List Char)
  expo : Option (List Char)
deriving Repr

def hexVal (c : Char) : Option Nat :=
  if 48 ≤ c.toNat ∧ c.toNat ≤ 57 then some (c.toNat - 48)
  else if 97 ≤ c.toNat ∧ c.toNat ≤ 102 then some (c.toNat - 87)
  else if 65 ≤ c.toNat ∧ c.toNat ≤ 70 then some (c.toNat - 55)
  else none

/-- Body of the NUMBER_RE match after the optional sign:
`(0|[1-9]\\d*)(\\.\\d+)?([eE][-+]?\\d+)?`. -/
def scanNumBody (neg : Bool) : List Char → Option (NumParts × List Char)
  | [] => none
  | c :: rest =>
    if isDigitChar c = true then
      let (intDigits, rest1) : List Char × List Char :=
        if c = '0' then ([c], rest)
        else (c :: rest.takeWhile (fun d => isDigitChar d),
          rest.dropWhile (fun d => isDigitChar d))
      let (frac, rest2) : Option (List Char) × List Char :=
        match rest1 with
        | '.' :: r2 =>
          let ds := r2.takeWhile (fun d => isDigitChar d)
          if ds = [] then (none, rest1)
          else (some ds, r2.dropWhile (fun d => isDigitChar d))
        | _ => (none, rest1)
      let (expo, rest3) : Option (List Char) × List Char :=
        match rest2 with
        | e :: r2 =>
          if e = 'e' ∨ e = 'E' then
            let (sgn, r3) : List Char × List Char :=
              match r2 with
              | s :: r4 => if s = '+' ∨ s = '-' then ([s], r4) else ([], r2)
              | [] => ([], r2)
            let ds := r3.takeWhile (fun d => isDigitChar d)
            if ds = [] then (none, rest2)
            else (some (e :: sgn ++ ds), r3.dropWhile (fun d => isDigitChar d))
          else (none, rest2)
        | [] => (none, rest2)
      some ({ neg := neg, intPart := intDigits, frac := frac, expo := expo }, rest3)
    else none

/-- The NUMBER_RE match at the current position, with the matched groups. -/
def scanNumber : List Char → Option (NumParts × List Char)
  | [] => none
  | c :: cs1 =>
    if c = '-' then scanNumBody true cs1
    else scanNumBody false (c :: cs1)

def digitsToNat (ds : List Char) : Nat :=
  ds.foldl (fun acc c => acc * 10 + (c.toNat - 48)) 0

def numPartsToInt (p : NumParts) : Int :=
  if p.neg then - (digitsToNat p.intPart : Int) else (digitsToNat p.intPart : Int)

/-- `py_scanstring`: the characters of a string literal up to the closing
quote, with escape processing; strict mode rejects raw control characters. -/
def scanString : List Char → Except String (List Char × List Char)
  | [] => .error "Unterminated string"
  | '"' :: rest => .ok ([], rest)
  | '\\' :: rest =>
    match rest with
    | [] => .error "Unterminated string"
    | 'u' :: h1 :: h2 :: h3 :: h4 :: rest3 =>
      match hexVal h1, hexVal h2, hexVal h3, hexVal h4 with
      | some a, some b, some c, some d =>
        let u := ((a * 16 + b) * 16 + c) * 16 + d
        if 0xD800 ≤ u ∧ u ≤ 0xDBFF then
          match rest3 with
          | '\\' :: 'u' :: k1 :: k2 :: k3 :: k4 :: rest4 =>
            match hexVal k1, hexVal k2, hexVal k3, hexVal k4 with
            | some a2, some b2, some c2, some d2 =>
              let u2 := ((a2 * 16 + b2) * 16 + c2) * 16 + d2
              if 0xDC00 ≤ u2 ∧ u2 ≤ 0xDFFF then
                match scanString rest4 with
                | .error e => .error e
                | .ok (s, r) =>
                  .ok (Char.ofNat (0x10000 + (u - 0xD800) * 0x400 + (u2 - 0xDC00)) :: s, r)
              else .error "LONE_SURROGATE"
            | _, _, _, _ => .error "Invalid uXXXX escape"
          | _ => .error "LONE_SURROGATE"
        else if 0xDC00 ≤ u ∧ u ≤ 0xDFFF then .error "LONE_SURROGATE"
        else
          match scanString rest3 with
          | .error e => .error e
          | .ok (s, r) => .ok (Char.ofNat u :: s, r)
      | _, _, _, _ => .error "Invalid uXXXX escape"
    | e :: rest2 =>
      let esc : Option Char :=
        if e = '"' then some '"'
        else if e = '\\' then some '\\'
        else if e = '/' then some '/'
        else if e = 'b' then some (Char.ofNat 8)
        else if e = 'f' then some (Char.ofNat 12)
        else if e = 'n' then some '\n'
        else if e = 'r' then some '\r'
        else if e = 't' then some '\t'
        else none
      match esc with
      | none => .error "Invalid escape"
      | some c =>
        match scanString rest2 with
        | .error e2 => .error e2
        | .ok (s, r) => .ok (c :: s, r)
  | c :: rest =>
    if c.toNat < 0x20 then .error "Invalid control character"
    else
      match scanString rest with
      | .error e => .error e
      | .ok (s, r) => .ok (c :: s, r)

mutual

/-- `scan_once` of the Python scanner, with explicit fuel (the input length
plus a margin always suffices; every recursion first consumes input). -/
def scanValue : Nat → List Char → Except String (PyJson × List Char)
  | 0, _ => .error "FUEL_EXHAUSTED"
  | fuel + 1, cs =>
    match cs with
    | [] => .error "Expecting value"
    | c :: rest =>
      if c = '"' then
        match scanString rest with
        | .error e => .error e
        | .ok (s, r) => .ok (.str s, r)
      else if c = lbrace then scanObjBody fuel rest
      else if c = '[' then scanArrBody fuel rest
      else
        match litMatch (String.toList "null") cs with
        | some r => .ok (.null, r)
        | none =>
        match litMatch (String.toList "true") cs with
        | some r => .ok (.bool true, r)
        | none =>
        match litMatch (String.toList "false") cs with
        | some r => .ok (.bool false, r)
        | none =>
        match scanNumber cs with
        | some (parts, r) =>
          if parts.frac ≠ none ∨ parts.expo ≠ none then .error "FLOAT_FORBIDDEN"
          else .ok (.int (numPartsToInt parts), r)
        | none =>
        match litMatch (String.toList "NaN") cs with
        | some r => .ok (.float .nan, r)
        | none =>
        match litMatch (String.toList "Infinity") cs with
        | some r => .ok (.float .inf, r)
        | none =>
        match litMatch (String.toList "-Infinity") cs with
        | some r => .ok (.float .neginf, r)
        | none => .error "Expecting value"

/-- `JSONArray` after the opening bracket. -/
def scanArrBody : Nat → List Char → Except String (PyJson × List Char)
  | 0, _ => .error "FUEL_EXHAUSTED"
  | fuel + 1, cs =>
    match skipWs cs with
    | ']' :: rest => .ok (.list [], rest)
    | cs1 =>
      match scanArrElems fuel cs1 with
      | .error e => .error e
      | .ok (vs, r) => .ok (.list vs, r)

def scanArrElems : Nat → List Char → Except String (List PyJson × List Char)
  | 0, _ => .error "FUEL_EXHAUSTED"
  | fuel + 1, cs =>
    match scanValue fuel cs with
    | .error e => .error e
    | .ok (v, r1) =>
      match skipWs r1 with
      | ',' :: r2 =>
        match scanArrElems fuel (skipWs r2) with
        | .error e => .error e
        | .ok (vs, r3) => .ok (v :: vs, r3)
      | ']' :: r2 => .ok ([v], r2)
      | _ => .error "Expecting comma delimiter"

/-- `JSONObject` after the opening brace; duplicate keys follow Python dict
assignment semantics (`dictFromItems`). -/
def scanObjBody : Nat → List Char → Except String (PyJson × List Char)
  | 0, _ => .error "FUEL_EXHAUSTED"
  | fuel + 1, cs =>
    match skipWs cs with
    | c :: rest =>
      if c = rbrace then .ok (.dict [], rest)
      else if c = '"' then
        match scanMembers fuel (c :: rest) with
        | .error e => .error e
        | .ok (pairs, r) => .ok (.dict (dictFromItems pairs), r)
      else .error "Expecting property name enclosed in double quotes"
    | [] => .error "Expecting property name enclosed in double quotes"

def scanMembers : Nat → List Char →
    Except String (List (List Char × PyJson) × List Char)
  | 0, _ => .error "FUEL_EXHAUSTED"
  | fuel + 1, cs =>
    match cs with
    | '"' :: rest =>
      match scanString rest with
      | .error e => .error e
      | .ok (k, r1) =>
        match skipWs r1 with
        | ':' :: r2 =>
          match scanValue fuel (skipWs r2) with
          | .error e => .error e
          | .ok (v, r3) =>
            match skipWs r3 with
            | ',' :: r4 =>
              match scanMembers fuel (skipWs r4) with
              | .error e => .error e
              | .ok (kvs, r5) => .ok ((k, v) :: kvs, r5)
            | c2 :: r4 =>
              if c2 = rbrace then .ok ([(k, v)], r4)
              else .error "Expecting comma delimiter"
            | [] => .error "Expecting comma delimiter"
        | _ => .error "Expecting colon delimiter"
    | _ => .error "Expecting property name enclosed in double quotes"

end

/-- `json.loads(raw, parse_float=forbid_float)`. -/
def json_parse (raw : List Char) : Except String PyJson :=
  match scanValue (raw.length + 2) (skipWs raw) with
  | .error e => .error e
  | .ok (v, rest) => if skipWs rest = [] then .ok v else .error "Extra data"

/-- `canon_json`: parse, canonicalize, dump. -/
def canon_json (raw : List Char) : Except String (List Char) :=
  match json_parse raw with
  | .error e => .error e
  | .ok v =>
    match canonicalize_json_obj v with
    | .error e => .error e
    | .ok c => .ok (dumps c)

/-- The canonicalize-then-dump tail of `canon_json` on a parsed value. -/
def canon_dumps (v : PyJson) : Except String (List Char) :=
  match canonicalize_json_obj v with
  | .error e => .error e
  | .ok c => .ok (dumps c)

theorem scanNumBody_head {neg : Bool} {cs : List Char} {parts : NumParts}
    {rest : List Char} (h : scanNumBody neg cs = some (parts, rest)) :
    ∃ c cs', cs = c :: cs' ∧ isDigitChar c = true := by
  cases cs with
  | nil => rw [scanNumBody] at h; exact absurd h (by simp)
  | cons c cs' =>
    refine ⟨c, cs', rfl, ?_⟩
    by_cases hd : isDigitChar c = true
    · exact hd
    · rw [scanNumBody, if_neg hd] at h
      exact absurd h (by simp)

theorem scanNumber_head {cs : List Char} {parts : NumParts} {rest : List Char}
    (h : scanNumber cs = some (parts, rest)) :
    ∃ c cs', cs = c :: cs' ∧ (c = '-' ∨ isDigitChar c = true) := by
  cases cs with
  | nil => rw [scanNumber] at h; exact absurd h (by simp)
  | cons c cs' =>
    refine ⟨c, cs', rfl, ?_⟩
    by_cases hc : c = '-'
    · exact Or.inl hc
    · right
      rw [scanNumber, if_neg hc] at h
      rcases scanNumBody_head h with ⟨c2, cs2, heq, hd⟩
      rw [(List.cons.inj heq).1]
      exact hd

theorem nonNumHead {c : Char} (hc : c = '-' ∨ isDigitChar c = true) (d : Char)
    (hd : isDigitChar d = false ∧ d ≠ '-') : c ≠ d := by
  rcases hc with rfl | hdig
  · exact fun hh => hd.2 hh.symm
  · intro hh
    rw [hh] at hdig
    rw [hdig] at hd
    exact absurd hd.1 (by simp)

/-- If the number regex matches at the current position with a fractional
part or exponent group, `scan_once` fails with `FLOAT_FORBIDDEN` — the
rejection happens inside the scanner, at parse time. -/
theorem scanValue_float (fuel : Nat) (cs : List Char) (parts : NumParts)
    (rest : List Char) (hn : scanNumber cs = some (parts, rest))
    (hf : parts.frac ≠ none ∨ parts.expo ≠ none) :
    scanValue (fuel + 1) cs = .error "FLOAT_FORBIDDEN" := by
  rcases scanNumber_head hn with ⟨c, cs', rfl, hc⟩
  have h1 : ¬ (c = '"') := nonNumHead hc '"' (by decide)
  have h2 : ¬ (c = lbrace) := nonNumHead hc lbrace (by decide)
  have h3 : ¬ (c = '[') := nonNumHead hc '[' (by decide)
  have h4 : ¬ (c = 'n') := nonNumHead hc 'n' (by decide)
  have h5 : ¬ (c = 't') := nonNumHead hc 't' (by decide)
  have h6 : ¬ (c = 'f') := nonNumHead hc 'f' (by decide)
  simp only [scanValue, if_neg h1, if_neg h2, if_neg h3]
  rw [show String.toList "null" = ['n', 'u', 'l', 'l'] from rfl,
    show String.toList "true" = ['t', 'r', 'u', 'e'] from rfl,
    show String.toList "false" = ['f', 'a', 'l', 's', 'e'] from rfl]
  simp only [litMatch, if_neg h4, if_neg h5, if_neg h6]
  rw [hn]
  simp only [if_pos hf]

theorem noFloatList_exists :
    ∀ xs : List PyJson, noFloatList xs = false → ∃ x ∈ xs, noFloat x = false := by
  intro xs
  induction xs with
  | nil => intro h; rw [noFloatList] at h; exact absurd h (by simp)
  | cons x xs ih =>
    intro h
    rw [noFloatList] at h
    rcases Bool.and_eq_false_iff.mp h with h1 | h1
    · exact ⟨x, List.mem_cons_self _ _, h1⟩
    · rcases ih h1 with ⟨y, hy, hny⟩
      exact ⟨y, List.mem_cons_of_mem _ hy, hny⟩

theorem noFloatItems_exists :
    ∀ qs : List (List Char × PyJson), noFloatItems qs = false →
      ∃ k v, (k, v) ∈ qs ∧ noFloat v = false := by
  intro qs
  induction qs with
  | nil => intro h; rw [noFloatItems] at h; exact absurd h (by simp)
  | cons p qs ih =>
    rcases p with ⟨k, v⟩
    intro h
    rw [noFloatItems] at h
    rcases Bool.and_eq_false_iff.mp h with h1 | h1
    · exact ⟨k, v, List.mem_cons_self _ _, h1⟩
    · rcases ih h1 with ⟨k2, v2, hkv, hnv⟩
      exact ⟨k2, v2, List.mem_cons_of_mem _ hkv, hnv⟩

theorem canonElems_error_of_mem :
    ∀ (xs : List PyJson) (x : PyJson), x ∈ xs →
      canonicalize_json_obj x = .error "FLOAT_FORBIDDEN" →
      canonElems xs = .error "FLOAT_FORBIDDEN" := by
  intro xs
  induction xs with
  | nil => intro x hx; simp at hx
  | cons y ys ih =>
    intro x hx herr
    rw [canonElems_cons]
    rcases List.mem_cons.mp hx with h1 | h1
    · subst h1
      rw [herr]
    · cases hy : canonicalize_json_obj y with
      | error e => rw [canonicalize_json_obj_error y e hy]
      | ok c => rw [ih x h1 herr]

theorem canonItems_error_of_mem :
    ∀ (qs : List (List Char × PyJson)) (k : List Char) (v : PyJson), (k, v) ∈ qs →
      canonicalize_json_obj v = .error "FLOAT_FORBIDDEN" →
      canonItems qs = .error "FLOAT_FORBIDDEN" := by
  intro qs
  induction qs with
  | nil => intro k v hkv; simp at hkv
  | cons p ps ih =>
    rcases p with ⟨k0, v0⟩
    intro k v hkv herr
    rw [canonItems_cons]
    rcases List.mem_cons.mp hkv with h1 | h1
    · rcases Prod.mk.inj h1 with ⟨hk, hv⟩
      subst hk
      subst hv
      rw [herr]
    · cases hv0 : canonicalize_json_obj v0 with
      | error e => rw [canonicalize_json_obj_error v0 e hv0]
      | ok c => rw [ih k v h1 herr]

/-- A parsed value containing a float (reachable only through the NaN /
Infinity / -Infinity constants) is rejected by the recursive
canonicalization pass with `FLOAT_FORBIDDEN`. -/
theorem canonicalize_error_of_float :
    ∀ v, noFloat v = false → canonicalize_json_obj v = .error "FLOAT_FORBIDDEN" := by
  intro v
  induction v using PyJson.inductionOn with
  | hnull => intro h; rw [noFloat] at h; exact absurd h (by simp)
  | hbool b => intro h; rw [noFloat] at h; exact absurd h (by simp)
  | hint n => intro h; rw [noFloat] at h; exact absurd h (by simp)
  | hfloat f => intro _; rw [canonicalize_json_obj]
  | hstr s => intro h; rw [noFloat] at h; exact absurd h (by simp)
  | hlist xs ih =>
    intro h
    rw [noFloat] at h
    rcases noFloatList_exists xs h with ⟨x, hx, hnx⟩
    rw [canonicalize_list_eq, canonElems_error_of_mem xs x hx (ih x hx hnx)]
  | hdict kvs ih =>
    intro h
    rw [noFloat] at h
    rcases noFloatItems_exists kvs h with ⟨k, v, hkv, hnv⟩
    rw [canonicalize_dict_eq, canonItems_error_of_mem kvs k v hkv (ih k v hkv hnv)]

/-- C6: JSON canonicalization is order-independent and idempotent: permuting
the elements of any input array (at any depth) yields the same canonical
output bytes (or the same error), and canonicalizing an already-canonical
value (any canonicalization output) leaves it unchanged. -/
theorem c6_json_canonicalization :
    (∀ v w, PermRel v w → canon_dumps v = canon_dumps w) ∧
    (∀ v c, canonicalize_json_obj v = Except.ok c →
      canonicalize_json_obj c = Except.ok c) := by
  constructor
  · intro v w h
    unfold canon_dumps
    rw [canonicalize_permRel v w h]
  · intro v c h
    exact canonicalize_of_isCanon c (canonicalize_ok_isCanon v c h)

/-- Witness for C6: permuting `[2, null]` to `[null, 2]` yields the same
canonical bytes, and the canonical value `[5]` canonicalizes to itself. -/
theorem c6_witness :
    canon_dumps (PyJson.list [PyJson.int 2, PyJson.null]) =
      canon_dumps (PyJson.list [PyJson.null, PyJson.int 2]) ∧
    canonicalize_json_obj (PyJson.list [PyJson.int 5]) =
      Except.ok (PyJson.list [PyJson.int 5]) := by
  have hcanon : canonicalize_json_obj (PyJson.list [PyJson.int 5]) =
      Except.ok (PyJson.list [PyJson.int 5]) :=
    canonicalize_of_isCanon _ (IsCanon.list _
      (by
        intro x hx
        have hx2 := List.mem_singleton.mp hx
        subst hx2
        exact IsCanon.int 5)
      (List.pairwise_singleton _ _))
  refine ⟨?_, c6_json_canonicalization.2 _ _ hcanon⟩
  refine c6_json_canonicalization.1 _ _ ?_
  rw [PermRel]
  refine ⟨[PyJson.int 2, PyJson.null], [PyJson.null, PyJson.int 2], ?_, ?_, rfl⟩
  · rw [PermRelList]
    refine ⟨by rw [PermRel], ?_⟩
    rw [PermRelList]
    exact ⟨by rw [PermRel], by rw [PermRelList]; trivial⟩
  · exact List.Perm.swap PyJson.null (PyJson.int 2) []

/-- C7: a numeric token with a fractional part or exponent aborts at parse
time.  (1) A parse error is the final result of `canon_json` — no
canonicalization or ordering is attempted and there is no partial output;
(2) whenever the number regex matches with a fractional or exponent group,
the scanner itself returns `FLOAT_FORBIDDEN`; (3) the spec's example input
fails with `FLOAT_FORBIDDEN`. -/
theorem c7_float_forbidden :
    (∀ raw e, json_parse raw = Except.error e → canon_json raw = Except.error e) ∧
    (∀ fuel cs parts rest, scanNumber cs = some (parts, rest) →
      (parts.frac ≠ none ∨ parts.expo ≠ none) →
      scanValue (fuel + 1) cs = Except.error "FLOAT_FORBIDDEN") ∧
    canon_json (String.toList "[3,\"a\",null,true,1.5]") =
      Except.error "FLOAT_FORBIDDEN" := by
  refine ⟨?_, fun fuel cs parts rest hn hf => scanValue_float fuel cs parts rest hn hf, rfl⟩
  intro raw e h
  unfold canon_json
  rw [h]

/-- Witness for C7 at the input `[1.5]` and at the bare token `1.5`. -/
theorem c7_witness :
    canon_json (String.toList "[1.5]") = Except.error "FLOAT_FORBIDDEN" ∧
    scanValue 1 (String.toList "1.5") = Except.error "FLOAT_FORBIDDEN" := by
  constructor
  · exact c7_float_forbidden.1 _ _ (by rfl)
  · exact c7_float_forbidden.2.1 0 (String.toList "1.5")
      { neg := false, intPart := ['1'], frac := some ['5'], expo := none } []
      (by rfl) (Or.inl (by simp))

/-- C10: the constants NaN / Infinity / -Infinity parse successfully into
float values (the parser's `parse_float` hook is not invoked for them), and
the rejection then happens during the recursive canonicalization pass: any
parsed value containing a float canonicalizes to `FLOAT_FORBIDDEN`, so
`canon_json` still fails with `FLOAT_FORBIDDEN`. -/
theorem c10_float_constants :
    json_parse (String.toList "[NaN,Infinity,-Infinity]") =
      Except.ok (PyJson.list
        [PyJson.float PyFloat.nan, PyJson.float PyFloat.inf,
         PyJson.float PyFloat.neginf]) ∧
    (∀ v, noFloat v = false →
      canonicalize_json_obj v = Except.error "FLOAT_FORBIDDEN") ∧
    canon_json (String.toList "[NaN,Infinity,-Infinity]") =
      Except.error "FLOAT_FORBIDDEN" := by
  refine ⟨rfl, canonicalize_error_of_float, ?_⟩
  unfold canon_json
  rw [show json_parse (String.toList "[NaN,Infinity,-Infinity]") =
      Except.ok (PyJson.list
        [PyJson.float PyFloat.nan, PyJson.float PyFloat.inf,
         PyJson.float PyFloat.neginf]) from rfl]
  show (match canonicalize_json_obj (PyJson.list
      [PyJson.float PyFloat.nan, PyJson.float PyFloat.inf,
       PyJson.float PyFloat.neginf]) with
    | Except.error e => Except.error e
    | Except.ok c => Except.ok (dumps c)) = Except.error "FLOAT_FORBIDDEN"
  rw [canonicalize_error_of_float _ (by
    rw [noFloat, noFloatList, noFloat]
    simp)]

/-- Witness for C10: a bare NaN value is rejected by the canonicalization
pass with `FLOAT_FORBIDDEN`. -/
theorem c10_witness :
    canonicalize_json_obj (PyJson.float PyFloat.nan) =
      Except.error "FLOAT_FORBIDDEN" :=
  c10_float_constants.2.1 _ (by rw [noFloat])

/-- The request mapping consumed by `adjudicate` (the keys read via `req.get`,
with the source's defaults). -/
structure AdjRequest where
  chi_touch : Bool := false
  chi_harm : Bool := false
  unsupervised_write : Bool := false
  fake_proof_seal : Bool := false
  novel_attack_flag : Bool := false
  bypass_flag : Bool := false
  chi_infect : Bool := false
  chi_spread : Bool := false
  chi_poison : Bool := false
  uncertainty_flag : Bool := false
  pending : Bool := false
  valid_id : Bool := true
  proof_present : Bool := true
  world_allow : Bool := true
  policy_allow : Bool := false
  ref : Bool := false
  rollback : Bool := false
  i_flow : Int := 0
  commit_unique : Int := 0
  delta_omega_req : Int := 1
deriving DecidableEq, Repr

/-- `classify_attack`: returns `(AttackHard, AttackSoft)`. -/
def classify_attack (req : AdjRequest) : Bool × Bool :=
  (req.chi_touch || req.chi_harm || req.unsupervised_write || req.fake_proof_seal,
   req.novel_attack_flag || req.bypass_flag || req.chi_infect || req.chi_spread ||
     req.chi_poison || req.uncertainty_flag || req.pending)

/-- `decide_route` (Lemma 1, minimal). -/
def decide_route (req : AdjRequest) (attack_hard attack_soft : Bool) : Route :=
  if attack_hard then .BLACKHOLE
  else if req.uncertainty_flag then .SAFE
  else if req.pending then .SAFE
  else if !req.valid_id then .SAFE
  else if !req.proof_present then .SAFE
  else if attack_soft then .SAFE
  else .FAST

/-- `bind_support_branch` (Lemma 2, minimal).  The Python `BAD_ROUTE` raise is
unreachable because `Route` is a closed three-element type. -/
def bind_support_branch (route : Route) (req : AdjRequest) (attack_hard : Bool)
    (i_flow commit_unique_final : Int) : Dt :=
  match route with
  | .FAST =>
      if req.world_allow ∧ commit_unique_final = 1 ∧ i_flow = 0 then .WORLD_ALLOW
      else if req.policy_allow then .POLICY_ALLOW
      else .EVID_ALLOW
  | .SAFE =>
      if req.pending then .PENDING
      else if req.ref then .REF
      else if req.rollback then .ROLLBACK
      else .DENY
  | .BLACKHOLE =>
      if attack_hard then .QUARANTINE
      else if req.rollback then .ROLLBACK
      else .DENY

def req_attack_hard (req : AdjRequest) : Bool := (classify_attack req).1

def req_attack_soft (req : AdjRequest) : Bool := (classify_attack req).2

def req_route (req : AdjRequest) : Route :=
  decide_route req (req_attack_hard req) (req_attack_soft req)

def req_cu_final (req : AdjRequest) : Int :=
  if req_route req = .FAST then req.commit_unique else 0

def req_dt (req : AdjRequest) : Dt :=
  bind_support_branch (req_route req) req (req_attack_hard req) req.i_flow (req_cu_final req)

/-- Lemma 3 computation in the source: the world-effect magnitude. -/
def req_delta_omega (req : AdjRequest) : Int :=
  if req_route req = .FAST ∧ req_cu_final req = 1 ∧ req.i_flow = 0 ∧
      req_dt req = .WORLD_ALLOW then
    req.delta_omega_req
  else 0

def req_out_allowed (req : AdjRequest) : List String :=
  match req_route req with
  | .FAST => ["WORLDWRITE", "PUBLISH", "TX", "BRIDGE", "TOOL"]
  | .SAFE => ["Explain", "EvidencePlan", "SimPlan", "REF", "UNCERT"]
  | .BLACKHOLE => ["REF"]

def req_disable_planes (req : AdjRequest) : List String :=
  match req_route req with
  | .FAST => []
  | .SAFE => ["CLAIM", "PUBLISH", "TX", "BRIDGE", "TOOL", "WORLDWRITE", "PROP", "RENDER", "INTERACT"]
  | .BLACKHOLE => ["CLAIM", "PUBLISH", "TX", "BRIDGE", "TOOL", "WORLDWRITE", "PROP", "RENDER", "INTERACT"]

def req_reason_codes (req : AdjRequest) : List String :=
  if req_dt req = .WORLD_ALLOW then [] else ["REASON_" ++ dtToString (req_dt req)]

def req_receipt (req : AdjRequest) : String :=
  if req_dt req = .WORLD_ALLOW then "ReceiptCard^FLOW"
  else if req_route req = .BLACKHOLE then "DenyPacket"
  else "ReceiptCard^FAIL"

/-- The `support_pack` dict built by `adjudicate`.  Constant-valued entries of
the Python dict (`I_CORE_HEX = 0`, the two hook markers `True`, `ChainCont = 1`)
are kept as fields so the whole dict is represented. -/
structure SupportPack where
  d_t : Dt
  Receipt_t : String
  GateVector_I_FLOW : Int
  GateVector_I_CORE_HEX : Int
  Hook_PreAction : Bool
  Hook_PreCommit : Bool
  Writeback_tombstone_redacted : Bool
  Writeback_ChainCont : Int
  ReasonCode_t : List String
  Anchor_t : String
deriving DecidableEq, Repr

def req_support_pack (req : AdjRequest) : SupportPack where
  d_t := req_dt req
  Receipt_t := req_receipt req
  GateVector_I_FLOW := req.i_flow
  GateVector_I_CORE_HEX := 0
  Hook_PreAction := true
  Hook_PreCommit := true
  Writeback_tombstone_redacted := req_delta_omega req = 0
  Writeback_ChainCont := 1
  ReasonCode_t := req_reason_codes req
  Anchor_t := "ANCHOR_" ++ routeToString (req_route req)

/-- The dict returned by `adjudicate` (`SupportOK` is the constant `True`). -/
structure DecisionRecord where
  Route : Route
  d_t : Dt
  AttackHard : Bool
  AttackSoft : Bool
  I_FLOW : Int
  CommitUnique : Int
  DeltaOmega : Int
  OutAllowed : List String
  disable_planes : List String
  SupportOK : Bool
  SupportPack : SupportPack
deriving DecidableEq, Repr

def adjudicateRecord (req : AdjRequest) : DecisionRecord where
  Route := req_route req
  d_t := req_dt req
  AttackHard := req_attack_hard req
  AttackSoft := req_attack_soft req
  I_FLOW := req.i_flow
  CommitUnique := req_cu_final req
  DeltaOmega := req_delta_omega req
  OutAllowed := req_out_allowed req
  disable_planes := req_disable_planes req
  SupportOK := true
  SupportPack := req_support_pack req

/-- `adjudicate`: builds the record; raises `BYPASS_DETECTED` when the
SupportPack was built with no reason code although `d_t` is not `WORLD_ALLOW`. -/
def adjudicate (req : AdjRequest) : Except String DecisionRecord :=
  if req_dt req ≠ .WORLD_ALLOW ∧ req_reason_codes req = [] then
    .error "BYPASS_DETECTED: Missing ReasonCode for non-WORLD_ALLOW"
  else
    .ok (adjudicateRecord req)

theorem adjudicate_ok (req : AdjRequest) : adjudicate req = .ok (adjudicateRecord req) := by
  unfold adjudicate
  rw [if_neg]
  rintro ⟨hne, hempty⟩
  unfold req_reason_codes at hempty
  rw [if_neg hne] at hempty
  exact List.cons_ne_nil _ _ hempty

/-- The rule table of the spec's route-selection step, in its stated order. -/
def routeRules (req : AdjRequest) (attack_hard attack_soft : Bool) : List (Bool × Route) :=
  [(attack_hard, .BLACKHOLE),
   (req.uncertainty_flag, .SAFE),
   (req.pending, .SAFE),
   (!req.valid_id, .SAFE),
   (!req.proof_present, .SAFE),
   (attack_soft, .SAFE)]

/-- Modelled from the spec's words for comparison with `decide_route`:
first matching rule wins, otherwise FAST. -/
def firstMatchRoute (req : AdjRequest) (attack_hard attack_soft : Bool) : Route :=
  ((((routeRules req attack_hard attack_soft).find? (fun p => p.1)).map
    (fun p => p.2)).getD .FAST)

end Canon52

namespace Canon52

/-- Request used to refute claim C1: the caller asks for a world-effect
magnitude of 0 while satisfying every gate of the fast path. -/
def c1Req : AdjRequest := { commit_unique := 1, delta_omega_req := 0 }

/-- C1 counterexample: for the request with `commit_unique = 1` and
`delta_omega_req = 0`, adjudication succeeds, the right-hand side of the
Lemma 3 equivalence holds (route FAST, finalized commit-uniqueness 1,
flow-isolation 0, d_t WORLD_ALLOW), yet the world-effect magnitude is 0 —
so the claimed equivalence is false for this request. -/
theorem c1_counterexample :
    adjudicate c1Req = Except.ok (adjudicateRecord c1Req) ∧
    ¬ ((adjudicateRecord c1Req).DeltaOmega ≠ 0 ↔
        ((adjudicateRecord c1Req).Route = Route.FAST ∧
         (adjudicateRecord c1Req).CommitUnique = 1 ∧
         (adjudicateRecord c1Req).I_FLOW = 0 ∧
         (adjudicateRecord c1Req).d_t = Dt.WORLD_ALLOW)) := by
  constructor
  · exact adjudicate_ok _
  · decide

/-- C1 (amended): for every request, the world-effect magnitude is non-zero
iff route = FAST, finalized commit-uniqueness = 1, flow-isolation = 0,
d_t = WORLD_ALLOW, and the caller-supplied `delta_omega_req` is itself
non-zero.  (The original claim omits the last conjunct and fails when the
caller supplies `delta_omega_req = 0`.) -/
theorem c1_amended (req : AdjRequest) (r : DecisionRecord)
    (h : adjudicate req = Except.ok r) :
    r.DeltaOmega ≠ 0 ↔
      (r.Route = Route.FAST ∧ r.CommitUnique = 1 ∧ r.I_FLOW = 0 ∧
       r.d_t = Dt.WORLD_ALLOW ∧ req.delta_omega_req ≠ 0) := by
  rw [adjudicate_ok] at h
  injection h with h
  subst h
  show req_delta_omega req ≠ 0 ↔ _
  simp only [adjudicateRecord]
  unfold req_delta_omega
  by_cases hc : req_route req = Route.FAST ∧ req_cu_final req = 1 ∧ req.i_flow = 0 ∧
      req_dt req = Dt.WORLD_ALLOW
  · obtain ⟨h1, h2, h3, h4⟩ := hc
    simp [h1, h2, h3, h4]
  · rw [if_neg hc]
    simp only [ne_eq, not_true_eq_false, false_iff, not_not]
    intro hcon
    exact absurd ⟨hcon.1, hcon.2.1, hcon.2.2.1, hcon.2.2.2.1⟩ hc

/-- Witness for C1's amended theorem at the all-defaults request. -/
theorem c1_amended_witness :
    (adjudicateRecord ({} : AdjRequest)).DeltaOmega ≠ 0 ↔
      ((adjudicateRecord ({} : AdjRequest)).Route = Route.FAST ∧
       (adjudicateRecord ({} : AdjRequest)).CommitUnique = 1 ∧
       (adjudicateRecord ({} : AdjRequest)).I_FLOW = 0 ∧
       (adjudicateRecord ({} : AdjRequest)).d_t = Dt.WORLD_ALLOW ∧
       ({} : AdjRequest).delta_omega_req ≠ 0) :=
  c1_amended ({} : AdjRequest) (adjudicateRecord ({} : AdjRequest)) (adjudicate_ok _)

/-- C2: every well-formed request adjudicates successfully (the
`BYPASS_DETECTED` branch is unreachable), and whenever the resulting `d_t`
is not `WORLD_ALLOW` the SupportPack's reason-code list is non-empty. -/
theorem c2_no_silent_denial (req : AdjRequest) :
    ∃ r, adjudicate req = Except.ok r ∧
      (r.d_t ≠ Dt.WORLD_ALLOW → r.SupportPack.ReasonCode_t ≠ []) := by
  refine ⟨adjudicateRecord req, adjudicate_ok req, fun hne => ?_⟩
  show req_reason_codes req ≠ []
  unfold req_reason_codes
  rw [if_neg (show req_dt req ≠ Dt.WORLD_ALLOW from hne)]
  exact List.cons_ne_nil _ _

/-- C3: `decide_route` is exactly the spec's first-matching-rule table
(for all requests and attack flags), and the request with only `chi_harm`
set yields route BLACKHOLE, d_t QUARANTINE, magnitude 0, OutAllowed [REF]. -/
theorem c3_route_order :
    (∀ (req : AdjRequest) (ah as : Bool),
        decide_route req ah as = firstMatchRoute req ah as) ∧
    (adjudicate { chi_harm := true } =
        Except.ok (adjudicateRecord { chi_harm := true }) ∧
      (adjudicateRecord { chi_harm := true }).Route = Route.BLACKHOLE ∧
      (adjudicateRecord { chi_harm := true }).d_t = Dt.QUARANTINE ∧
      (adjudicateRecord { chi_harm := true }).DeltaOmega = 0 ∧
      (adjudicateRecord { chi_harm := true }).OutAllowed = ["REF"]) := by
  constructor
  · intro req ah as
    cases ah <;> cases hu : req.uncertainty_flag <;> cases hp : req.pending <;>
      cases hv : req.valid_id <;> cases hq : req.proof_present <;> cases as <;>
      simp [decide_route, firstMatchRoute, routeRules, List.find?, hu, hp, hv, hq]
  · exact ⟨adjudicate_ok _, by decide, by decide, by decide, by decide⟩

/-- C4: the finalized commit-uniqueness flag equals the caller-supplied
`commit_unique` on route FAST and is 0 on routes SAFE and BLACKHOLE. -/
theorem c4_commit_unique (req : AdjRequest) (r : DecisionRecord)
    (h : adjudicate req = Except.ok r) :
    r.CommitUnique = (if r.Route = Route.FAST then req.commit_unique else 0) := by
  rw [adjudicate_ok] at h
  injection h with h
  subst h
  rfl

/-- Witness for C4 at a concrete SAFE-routed request with a non-zero
caller-supplied commit-uniqueness flag. -/
theorem c4_commit_unique_witness :
    (adjudicateRecord { uncertainty_flag := true, commit_unique := 5 }).CommitUnique =
      (if (adjudicateRecord { uncertainty_flag := true, commit_unique := 5 }).Route =
          Route.FAST then
        ({ uncertainty_flag := true, commit_unique := 5 } : AdjRequest).commit_unique
      else 0) :=
  c4_commit_unique _ _ (adjudicate_ok _)

end Canon52

namespace Canon52

/-! ### Vector runners (`run_canon_selftest`, `run_adjud_tests`)

The canonicalization self-test wraps each vector in a `try`/`except`;
`canonVectorRun` is the try-block (its `.error` is exactly what the
except-clause catches) and `canonVectorOk` is the per-vector verdict.
The adjudication runner has no `try`/`except`: `run_adjud_tests` returns
`.error` as soon as `adjudicate` raises, which models the replay aborting.
Field comparison `out.get(k) != exp.get(k)` is Python `==` on JSON values,
modelled by `pyEq` below. -/

/-- Python's `d.get(k)` on a JSON object represented as an association list
with unique keys. -/
def pyLookup (k : List Char) : List (List Char × PyJson) → Option PyJson
  | [] => none
  | p :: rest => if p.1 = k then some p.2 else pyLookup k rest

/-- Python `==` on the non-finite float constants: `nan` compares unequal to
everything, including itself. -/
def pyFloatEq : PyFloat → PyFloat → Bool
  | .inf, .inf => true
  | .neginf, .neginf => true
  | _, _ => false

/-- Pointwise comparison of two lists under `f` (Python list `==`). -/
def listAllZip (f : PyJson → PyJson → Bool) : List PyJson → List PyJson → Bool
  | [], [] => true
  | x :: xs, y :: ys => f x y && listAllZip f xs ys
  | _, _ => false

/-- Every key of the first association list maps to an `f`-equal value in
`qs`; with equal lengths and unique keys this is Python dict `==`. -/
def itemsAll (f : PyJson → PyJson → Bool) (qs : List (List Char × PyJson)) :
    List (List Char × PyJson) → Bool
  | [] => true
  | p :: rest =>
    (match pyLookup p.1 qs with
     | some w => f p.2 w
     | none => false) && itemsAll f qs rest

/-- Fuel-bounded Python `==` on JSON values.  Python's bool/int conflation
(`True == 1`) is kept.  The recursion only descends where both sides are
containers, so any fuel exceeding the nesting depth of the first argument
computes Python `==` exactly; `pyEq` below supplies such a fuel. -/
def pyEqF : Nat → PyJson → PyJson → Bool
  | 0, _, _ => false
  | fuel+1, a, b =>
    match a, b with
    | .null, .null => true
    | .bool x, .bool y => x == y
    | .bool x, .int n => boolInt x == n
    | .int n, .bool x => n == boolInt x
    | .int m, .int n => m == n
    | .float f, .float g => pyFloatEq f g
    | .str s, .str t => s == t
    | .list xs, .list ys => listAllZip (pyEqF fuel) xs ys
    | .dict ps, .dict qs => (ps.length == qs.length) && itemsAll (pyEqF fuel) qs ps
    | _, _ => false

mutual

/-- Nesting depth of a JSON value (atoms have depth 1). -/
def depth : PyJson → Nat
  | .null => 1
  | .bool _ => 1
  | .int _ => 1
  | .float _ => 1
  | .str _ => 1
  | .list xs => depthList xs + 1
  | .dict ps => depthItems ps + 1

def depthList : List PyJson → Nat
  | [] => 0
  | x :: xs => max (depth x) (depthList xs)

def depthItems : List (List Char × PyJson) → Nat
  | [] => 0
  | p :: ps => max (depth p.2) (depthItems ps)

end

/-- Python `==` on JSON values: `depth a` fuel never runs out because the
recursion of `pyEqF` strictly descends the first argument. -/
def pyEq (a b : PyJson) : Bool := pyEqF (depth a) a b

/-- Python's `d.get(k)` yields `None` for a missing key, and `None` is
exactly JSON null, so `get`-results compare as JSON values with `null`
for `none`. -/
def optJson : Option PyJson → PyJson
  | none => .null
  | some v => v

/-- Python `==` between two `d.get(k)` results. -/
def pyEqOpt (a b : Option PyJson) : Bool := pyEq (optJson a) (optJson b)

/-- JSON value of a Python list of strings. -/
def strListJson (xs : List String) : PyJson :=
  .list (xs.map (fun s => .str s.toList))

/-- The `support_pack` dict of `adjudicate` as the JSON value Python builds. -/
def supportPackJson (sp : SupportPack) : PyJson :=
  .dict
    [(String.toList "d_t", .str (dtToString sp.d_t).toList),
     (String.toList "Receipt_t", .str sp.Receipt_t.toList),
     (String.toList "GateVector_t", .dict
        [(String.toList "I_FLOW", .int sp.GateVector_I_FLOW),
         (String.toList "I_CORE_HEX", .int sp.GateVector_I_CORE_HEX)]),
     (String.toList "HookVector_t", .dict
        [(String.toList "Pre-Action", .bool sp.Hook_PreAction),
         (String.toList "Pre-Commit", .bool sp.Hook_PreCommit)]),
     (String.toList "WritebackVector_t", .dict
        [(String.toList "tombstone_redacted", .bool sp.Writeback_tombstone_redacted),
         (String.toList "ChainCont", .int sp.Writeback_ChainCont)]),
     (String.toList "ReasonCode_t", strListJson sp.ReasonCode_t),
     (String.toList "Anchor_t", .str sp.Anchor_t.toList)]

/-- The dict returned by `adjudicate` as an association list of JSON values,
in the source's construction order. -/
def recordFields (r : DecisionRecord) : List (List Char × PyJson) :=
  [(String.toList "Route", .str (routeToString r.Route).toList),
   (String.toList "d_t", .str (dtToString r.d_t).toList),
   (String.toList "AttackHard", .bool r.AttackHard),
   (String.toList "AttackSoft", .bool r.AttackSoft),
   (String.toList "I_FLOW", .int r.I_FLOW),
   (String.toList "CommitUnique", .int r.CommitUnique),
   (String.toList "DeltaOmega", .int r.DeltaOmega),
   (String.toList "OutAllowed", strListJson r.OutAllowed),
   (String.toList "disable_planes", strListJson r.disable_planes),
   (String.toList "SupportOK", .bool r.SupportOK),
   (String.toList "SupportPack", supportPackJson r.SupportPack)]

/-- The fixed `keys` list of `run_adjud_tests`, in the source's order. -/
def adjudKeys : List (List Char) :=
  [String.toList "Route", String.toList "d_t", String.toList "AttackHard",
   String.toList "AttackSoft", String.toList "I_FLOW",
   String.toList "CommitUnique", String.toList "DeltaOmega",
   String.toList "OutAllowed", String.toList "disable_planes",
   String.toList "SupportOK", String.toList "SupportPack"]

/-- One adjudication test vector: the request and the expected record
parsed from JSON. -/
structure AdjudVector where
  id : String
  req : AdjRequest
  expected : List (List Char × PyJson)

/-- The mismatching field names `run_adjud_tests` collects for one vector:
the keys of the fixed list whose values differ under Python `==` (a missing
key reads as `None`, i.e. null). -/
def adjudMismatch (out : DecisionRecord) (exp : List (List Char × PyJson)) :
    List (List Char) :=
  adjudKeys.filter
    (fun k => !(pyEqOpt (pyLookup k (recordFields out)) (pyLookup k exp)))

/-- `run_adjud_tests`: there is no `try`/`except` around `adjudicate`, so an
adjudication error propagates and aborts the replay (`.error`); otherwise
the (ok, fail) counters accumulate over all vectors. -/
def run_adjud_tests : List AdjudVector → Except String (Nat × Nat)
  | [] => .ok (0, 0)
  | v :: vs =>
    match adjudicate v.req with
    | .error e => .error e
    | .ok out =>
      match run_adjud_tests vs with
      | .error e => .error e
      | .ok counts =>
        if adjudMismatch out v.expected = [] then .ok (counts.1 + 1, counts.2)
        else .ok (counts.1, counts.2 + 1)

/-- One canonicalization self-test vector (`expected_error` is the
`v.get("expected_error", "")` default, so `[]` when absent). -/
structure CanonVector where
  id : String
  kind : List Char
  raw : List Char
  expected : List Char
  expected_hash : List Char
  expected_error : List Char

/-- `sha256_canon`, with NFC abstracted as `nfc` (as in `canon_text`) and
SHA-256 hex digest abstracted as `sha`: the runner claims do not depend on
hash values, only on which calls raise. -/
def sha256_canon (nfc sha : List Char → List Char) (kind raw : List Char) :
    Except String (List Char) :=
  if kind = String.toList "text" then
    match canon_text nfc raw with
    | .error e => .error e
    | .ok t => .ok (sha t)
  else if kind = String.toList "json" then
    match canon_json raw with
    | .error e => .error e
    | .ok j => .ok (sha j)
  else .error "BAD_KIND"

/-- The try-block of `run_canon_selftest` for one vector: hash the vector and
raise `EXPECTED_ERROR_BUT_GOT_HASH` / `HASH_MISMATCH ...` assertions; the
`.error` payload is the `str(e)` the except-clause sees. -/
def canonVectorRun (nfc sha : List Char → List Char) (v : CanonVector) :
    Except (List Char) Unit :=
  match sha256_canon nfc sha v.kind v.raw with
  | .error e => .error (String.toList e)
  | .ok got =>
    if v.expected ≠ String.toList "hash" then
      .error (String.toList "EXPECTED_ERROR_BUT_GOT_HASH")
    else if got ≠ v.expected_hash then
      .error (String.toList "HASH_MISMATCH expected=" ++ v.expected_hash ++
        String.toList " got=" ++ got)
    else .ok ()

/-- The per-vector verdict of `run_canon_selftest`: a clean hash counts OK;
a caught error counts OK exactly when `expected == "error"` and the
`expected_error` is absent or matches, otherwise it counts as the vector's
failure. -/
def canonVectorOk (nfc sha : List Char → List Char) (v : CanonVector) : Bool :=
  match canonVectorRun nfc sha v with
  | .ok _ => true
  | .error e =>
    if v.expected = String.toList "error" then
      (v.expected_error == ([] : List Char)) || (e == v.expected_error)
    else false

/-- One loop iteration of `run_canon_selftest` on the (ok, fail) counters. -/
def canonStep (nfc sha : List Char → List Char) (acc : Nat × Nat)
    (v : CanonVector) : Nat × Nat :=
  if canonVectorOk nfc sha v then (acc.1 + 1, acc.2) else (acc.1, acc.2 + 1)

/-- `run_canon_selftest`'s (ok, fail) counters over a vector list. -/
def run_canon_selftest (nfc sha : List Char → List Char)
    (vectors : List CanonVector) : Nat × Nat :=
  vectors.foldl (canonStep nfc sha) (0, 0)

theorem canonFold_counts (nfc sha : List Char → List Char) :
    ∀ (vs : List CanonVector) (acc : Nat × Nat),
      (vs.foldl (canonStep nfc sha) acc).1 +
        (vs.foldl (canonStep nfc sha) acc).2 = acc.1 + acc.2 + vs.length := by
  intro vs
  induction vs with
  | nil => intro acc; simp
  | cons v vs ih =>
    intro acc
    rw [List.foldl_cons, ih]
    unfold canonStep
    split <;> simp <;> omega

theorem run_adjud_tests_cons (v : AdjudVector) (vs : List AdjudVector)
    (counts : Nat × Nat) (h : run_adjud_tests vs = .ok counts) :
    run_adjud_tests (v :: vs) =
      if adjudMismatch (adjudicateRecord v.req) v.expected = [] then
        Except.ok (counts.1 + 1, counts.2)
      else Except.ok (counts.1, counts.2 + 1) := by
  simp only [run_adjud_tests, adjudicate_ok, h]

end Canon52

namespace Canon52

/-- The canonicalization vector of the C8 counterexample: a raw text
containing a tab, declared as `expected: error` with the matching
`expected_error`. -/
def c8Vec : CanonVector :=
  { id := "tab", kind := String.toList "text", raw := ['\t'],
    expected := String.toList "error", expected_hash := [],
    expected_error := String.toList "TAB_FORBIDDEN" }

/-- C8: counterexample.  Processing the tab vector raises `TAB_FORBIDDEN`
inside the try-block; the except-clause catches it, but because the vector
expects an error the caught error is recorded as the vector's SUCCESS, not
its failure: the runner reports OK=1 FAIL=0.  So a caught canonicalization
error is not always "recorded as that vector's failure" as claimed. -/
theorem c8_counterexample :
    canonVectorRun (fun s => s) (fun s => s) c8Vec =
      Except.error (String.toList "TAB_FORBIDDEN") ∧
    canonVectorOk (fun s => s) (fun s => s) c8Vec = true ∧
    run_canon_selftest (fun s => s) (fun s => s) [c8Vec] = (1, 0) :=
  ⟨rfl, rfl, rfl⟩

/-- C8 (amended): the canonicalization runner catches every per-vector
error, so replay always processes all vectors and OK + FAIL equals the
number of vectors; a caught error is recorded as the vector's failure
exactly when the vector did not expect an error, or expected a different
error message.  The adjudication runner has no per-vector catch, but
`adjudicate` returns a record for every well-formed request, so its replay
also processes every vector and its counters also sum to the vector count. -/
theorem c8_amended :
    (∀ (nfc sha : List Char → List Char) (vs : List CanonVector),
        (run_canon_selftest nfc sha vs).1 + (run_canon_selftest nfc sha vs).2 =
          vs.length) ∧
    (∀ (nfc sha : List Char → List Char) (v : CanonVector) (e : List Char),
        canonVectorRun nfc sha v = Except.error e →
        canonVectorOk nfc sha v =
          ((v.expected = String.toList "error") &&
           ((v.expected_error == ([] : List Char)) || (e == v.expected_error)))) ∧
    (∀ vs : List AdjudVector, ∃ counts,
        run_adjud_tests vs = Except.ok counts ∧ counts.1 + counts.2 = vs.length) := by
  refine ⟨?_, ?_, ?_⟩
  · intro nfc sha vs
    simpa [run_canon_selftest] using canonFold_counts nfc sha vs (0, 0)
  · intro nfc sha v e h
    simp only [canonVectorOk, h]
    by_cases hx : v.expected = String.toList "error"
    · simp [hx]
    · simp [hx]
  · intro vs
    induction vs with
    | nil => exact ⟨(0, 0), rfl, rfl⟩
    | cons v vs ih =>
      obtain ⟨counts, hrun, hsum⟩ := ih
      rw [run_adjud_tests_cons v vs counts hrun]
      by_cases hm : adjudMismatch (adjudicateRecord v.req) v.expected = []
      · rw [if_pos hm]
        exact ⟨(counts.1 + 1, counts.2), rfl, by simp only [List.length_cons]; omega⟩
      · rw [if_neg hm]
        exact ⟨(counts.1, counts.2 + 1), rfl, by simp only [List.length_cons]; omega⟩

/-- Witness for C8 at the tab vector (canonicalization side) and at a
one-vector adjudication list. -/
theorem c8_amended_witness :
    ((run_canon_selftest (fun s => s) (fun s => s) [c8Vec]).1 +
      (run_canon_selftest (fun s => s) (fun s => s) [c8Vec]).2 = 1) ∧
    (canonVectorOk (fun s => s) (fun s => s) c8Vec =
      ((c8Vec.expected = String.toList "error") &&
       ((c8Vec.expected_error == ([] : List Char)) ||
        (String.toList "TAB_FORBIDDEN" == c8Vec.expected_error)))) ∧
    (∃ counts, run_adjud_tests [{ id := "w", req := {}, expected := [] }] =
        Except.ok counts ∧ counts.1 + counts.2 = 1) :=
  ⟨c8_amended.1 (fun s => s) (fun s => s) [c8Vec],
   c8_amended.2.1 (fun s => s) (fun s => s) c8Vec (String.toList "TAB_FORBIDDEN") rfl,
   c8_amended.2.2 [{ id := "w", req := {}, expected := [] }]⟩

/-- The adjudication vector of the C9 counterexample: the expected record is
the produced record's own fields plus an extra field `Extra` that the
produced record does not have. -/
def c9Vec : AdjudVector :=
  { id := "extra-field",
    req := {},
    expected := recordFields (adjudicateRecord {}) ++
      [(String.toList "Extra", PyJson.int 7)] }

/-- C9: counterexample.  The runner compares only the fixed eleven keys, so
the field `Extra`, present in the expected record but absent from the
produced record, is never compared: the vector passes (OK=1 FAIL=0) instead
of failing as the claim requires. -/
theorem c9_counterexample :
    pyLookup (String.toList "Extra") c9Vec.expected = some (PyJson.int 7) ∧
    pyLookup (String.toList "Extra")
      (recordFields (adjudicateRecord ({} : AdjRequest))) = none ∧
    adjudMismatch (adjudicateRecord ({} : AdjRequest)) c9Vec.expected = [] ∧
    run_adjud_tests [c9Vec] = Except.ok (1, 0) :=
  ⟨rfl, rfl, rfl, rfl⟩

/-- C9 (amended): the runner compares exactly the fixed eleven keys of its
`keys` list under Python `==` (a missing key reading as null): a vector
passes iff all eleven agree, the reported mismatch list contains exactly
the disagreeing keys among the eleven, and expected-record fields outside
the eleven never influence the comparison. -/
theorem c9_amended :
    (∀ (out : DecisionRecord) (exp : List (List Char × PyJson)),
        adjudMismatch out exp = [] ↔
          ∀ k ∈ adjudKeys,
            pyEqOpt (pyLookup k (recordFields out)) (pyLookup k exp) = true) ∧
    (∀ (out : DecisionRecord) (exp : List (List Char × PyJson)) (k : List Char),
        k ∈ adjudMismatch out exp ↔
          k ∈ adjudKeys ∧
            pyEqOpt (pyLookup k (recordFields out)) (pyLookup k exp) = false) ∧
    (∀ (out : DecisionRecord) (exp1 exp2 : List (List Char × PyJson)),
        (∀ k ∈ adjudKeys, pyLookup k exp1 = pyLookup k exp2) →
        adjudMismatch out exp1 = adjudMismatch out exp2) := by
  refine ⟨?_, ?_, ?_⟩
  · intro out exp
    simp [adjudMismatch, List.filter_eq_nil_iff]
  · intro out exp k
    simp [adjudMismatch, List.mem_filter]
  · intro out exp1 exp2 h
    unfold adjudMismatch
    exact List.filter_congr fun k hk => by rw [h k hk]

/-- Witness for C9: a lone `Extra` field in the expected record leaves the
mismatch list the same as for an empty expected record. -/
theorem c9_amended_witness :
    adjudMismatch (adjudicateRecord ({} : AdjRequest))
        [(String.toList "Extra", PyJson.int 7)] =
      adjudMismatch (adjudicateRecord ({} : AdjRequest)) [] :=
  c9_amended.2.2 _ _ _ (by
    intro k hk
    simp only [adjudKeys, List.mem_cons, List.not_mem_nil, or_false] at hk
    rcases hk with rfl | rfl | rfl | rfl | rfl | rfl | rfl | rfl | rfl | rfl | rfl <;>
      rfl)

end Canon52
